import Mathlib

/-!
# The Mandelbrot render thread (`src/renderthread.cpp`)

A shallow embedding of `RenderThread` and of the helpers it uses.

Conventions of the embedding.

* C++ `int` values are `Int` (the sizes and shifts that occur stay far from the
  32-bit range); the `int` accumulators of `colorAvgSum`, whose range depends
  on the unchecked `supersample`, wrap modulo `2^32` (`wrapInt32`); the
  unsigned iteration counters are `Nat`.
* C++ `double` values are rationals `ℚ`.  The pixel geometry and the orbit
  arithmetic are transcribed literally and evaluated without rounding.  Where
  the rounding of the doubles decides the result, every operation is rounded
  to IEEE 754 binary64 by `roundDouble`: the quotient truncated at line 175
  (`scaleQuotient`) and the cardioid test of lines 252-253 as the program
  evaluates it (`cardioidCheckDouble`, next to the exact `cardioidCheck`).
  Values that only exist in IEEE arithmetic (the infinity produced by
  `1 / 0.0`) are outside the model and are represented by `none`.
* The shared flags `_restart` and `_abort` are read without a lock by the
  pixel tasks; a task therefore sees them through an observation sequence
  (`TaskEnv.restartAt`, `TaskEnv.abortAt`), one entry for each
  `if (_restart) break; if (_abort) return;` pair it executes.
* `run()` is a transition system over program locations (`Loc`); the calls
  `render()`, `restart()` and `abort()` made by other threads are interleaved
  with the worker's steps.
-/

namespace RenderThread

/-! ## Helpers (lines 56-92) -/

/-- The template `lerp` of lines 57-65: `(1 - t) * v0 + t * v1`. -/
def lerp (v0 v1 t : ℚ) : ℚ := (1 - t) * v0 + t * v1

/-- A `QColor`, reduced to its integer RGB channels. -/
structure QColor where
  red : Int
  green : Int
  blue : Int
deriving DecidableEq, Repr

/-- The colour `qRgb(0, 0, 0)` of line 294. -/
def black : QColor := ⟨0, 0, 0⟩

/-- The value an `int` holds after an arithmetic result `z`: the representative
of `z` modulo `2^32` in `-2^31 .. 2^31 - 1`.  A result inside the range is
unchanged; outside it the C++ operation overflows and the two's-complement
hardware wraps around. -/
def wrapInt32 (z : Int) : Int := (z + 2147483648) % 4294967296 - 2147483648

/-- The accumulation loop of `colorAvgSum` (lines 82-87): channel-wise sums in
the `int` accumulators `r`, `g`, `b`, every `+=` wrapped to 32 bits. -/
def colorSum (color_array : List QColor) : Int × Int × Int :=
  color_array.foldl
    (fun acc color =>
      (wrapInt32 (acc.1 + color.red), wrapInt32 (acc.2.1 + color.green),
        wrapInt32 (acc.2.2 + color.blue)))
    (0, 0, 0)

/-- The function `colorAvgSum` (lines 81-92): the channel sums of the `int`
accumulators divided by `supersample_scale` with C++ integer division
(truncation towards zero). -/
def colorAvgSum (color_array : List QColor) (supersample_scale : Int) : QColor :=
  let acc := colorSum color_array
  ⟨Int.tdiv acc.1 supersample_scale, Int.tdiv acc.2.1 supersample_scale,
    Int.tdiv acc.2.2 supersample_scale⟩

/-! ## Double arithmetic -/

/-- Rounding of an exact value to the nearest integer, a tie to the even
neighbour. -/
def roundHalfEven (m : ℚ) : Int :=
  let f := ⌊m⌋
  if m - f < 1 / 2 then f
  else if 1 / 2 < m - f then f + 1
  else if f % 2 = 0 then f
  else f + 1

/-- The IEEE 754 binary64 value of an exact result `x`, rounded to nearest with
ties to even: 53 significant bits above the exponent `-1022`, the fixed spacing
`2^-1074` below it (subnormal numbers); `none` when the rounded magnitude
reaches `2^1024`, where the double is an infinity.  The sign of a zero is not
represented. -/
def roundDouble (x : ℚ) : Option ℚ :=
  let e : Int := max (Int.log 2 |x|) (-1022)
  let ulp : ℚ := 2 ^ (e - 52)
  let r : ℚ := roundHalfEven (x / ulp) * ulp
  if |r| < 2 ^ (1024 : Int) then some r else none

/-! ## The per-sample escape-time computation (lines 250-295) -/

/-- The constant `Limit = (1 << 16)` of line 222. -/
def Limit : ℚ := 65536

/-- The value of `std::numeric_limits<double>::epsilon()`, that is `2^-52`. -/
def epsilon : ℚ := 1 / 4503599627370496

/-- The loop state of one sample: the orbit point `(cr, ci)` and the counter
`numIterations`, together with two ghost counters: `iterations` counts the
loop bodies executed (each evaluates `z^2 + c` once), `updates` counts the
assignments `cr = buffer_cr; ci = buffer_ci`. -/
structure Orbit where
  cr : ℚ
  ci : ℚ
  numIterations : Nat
  iterations : Nat
  updates : Nat
deriving DecidableEq, Repr

/-- The cardioid check of lines 252-253 over exact arithmetic: the two
expressions evaluated without rounding. -/
def cardioidCheck (x0 y0 : ℚ) : Bool :=
  let q := (x0 * x0 - x0 / 2 + 1 / 16) + y0 * y0
  decide (q * (q + (x0 - 1 / 4)) < y0 * y0 / 4)

/-- The cardioid check of lines 252-253 as the program evaluates it: every
operation of the two expressions is a binary64 operation, rounded by
`roundDouble`, in the order of the source; the constants `1 / 16.` and
`1 / 4.` are exact doubles.  The result is `none` when an intermediate value
is not finite. -/
def cardioidCheckDouble (x0 y0 : ℚ) : Option Bool := do
  let xx ← roundDouble (x0 * x0)
  let xh ← roundDouble (x0 / 2)
  let d ← roundDouble (xx - xh)
  let s ← roundDouble (d + 1 / 16)
  let yy ← roundDouble (y0 * y0)
  let q ← roundDouble (s + yy)
  let a ← roundDouble (x0 - 1 / 4)
  let qa ← roundDouble (q + a)
  let lhs ← roundDouble (q * qa)
  let rhs ← roundDouble (yy / 4)
  pure (decide (lhs < rhs))

/-- The periodic check of lines 263-264 and 278-279. -/
def periodicCheck (cr ci buffer_cr buffer_ci : ℚ) : Bool :=
  decide (|cr - buffer_cr| < epsilon) && decide (|ci - buffer_ci| < epsilon)

/-- The escape `while` loop of lines 257-270.  The first argument is fuel: one
unit is spent for each round of the loop.  Every round that continues
increases `numIterations`, which stays below `MaxIterations`, so
`MaxIterations - numIterations` units are enough (`escapeLoop_fuel`); the
callers pass `MaxIterations`. -/
def escapeLoop (x0 y0 : ℚ) (MaxIterations : Nat) : Nat → Orbit → Orbit
  | 0, o => o
  | fuel + 1, o =>
    if o.cr * o.cr + o.ci * o.ci ≤ Limit ∧ o.numIterations < MaxIterations then
      let buffer_cr := o.cr * o.cr - o.ci * o.ci + x0
      let buffer_ci := 2 * o.cr * o.ci + y0
      if periodicCheck o.cr o.ci buffer_cr buffer_ci then
        { o with numIterations := MaxIterations, iterations := o.iterations + 1 }
      else
        escapeLoop x0 y0 MaxIterations fuel
          ⟨buffer_cr, buffer_ci, o.numIterations + 1, o.iterations + 1, o.updates + 1⟩
    else o

/-- The smoothing `for` loop of lines 275-285; the first argument is the number
of rounds still to run (4 at the call). -/
def smoothLoop (x0 y0 : ℚ) (MaxIterations : Nat) : Nat → Orbit → Orbit
  | 0, o => o
  | k + 1, o =>
    let buffer_cr := o.cr * o.cr - o.ci * o.ci + x0
    let buffer_ci := 2 * o.cr * o.ci + y0
    if periodicCheck o.cr o.ci buffer_cr buffer_ci then
      { o with numIterations := MaxIterations, iterations := o.iterations + 1 }
    else
      smoothLoop x0 y0 MaxIterations k
        ⟨buffer_cr, buffer_ci, o.numIterations, o.iterations + 1, o.updates + 1⟩

/-- Lines 250-256: `numIterations` after the cardioid check, `cr = x0`,
`ci = y0`. -/
def sampleStart (x0 y0 : ℚ) (MaxIterations : Nat) : Orbit :=
  ⟨x0, y0, if cardioidCheck x0 y0 then MaxIterations else 0, 0, 0⟩

/-- Lines 250-256 with the cardioid check evaluated in doubles: the assignment
`numIterations = MaxIterations` of line 254 is executed when the comparison of
line 253 is true.  For finite `x0`, `y0` an intermediate value that is not
finite makes the left side of the comparison `+inf`, and the comparison
false. -/
def sampleStartDouble (x0 y0 : ℚ) (MaxIterations : Nat) : Orbit :=
  ⟨x0, y0, if cardioidCheckDouble x0 y0 = some true then MaxIterations else 0, 0, 0⟩

/-- Lines 250-270: the state when the escape loop is left. -/
def sampleEscape (x0 y0 : ℚ) (MaxIterations : Nat) : Orbit :=
  escapeLoop x0 y0 MaxIterations MaxIterations (sampleStart x0 y0 MaxIterations)

/-- Lines 250-285: the state after the escape loop and, when it is entered, the
smoothing loop. -/
def sampleOrbit (x0 y0 : ℚ) (MaxIterations : Nat) : Orbit :=
  let o := sampleEscape x0 y0 MaxIterations
  if o.numIterations < MaxIterations then smoothLoop x0 y0 MaxIterations 4 o else o

/-- Lines 250-295: the colour appended to `sample_colors` for the sample point
`(x0, y0)`.  The argument `smoothColor` stands for lines 287-292 (logarithms,
`floor` and the `colormap` interpolation), given the final `numIterations`,
`cr` and `ci`. -/
def sampleColor (smoothColor : Nat → ℚ → ℚ → QColor) (x0 y0 : ℚ)
    (MaxIterations : Nat) : QColor :=
  let o := sampleEscape x0 y0 MaxIterations
  if o.numIterations < MaxIterations then
    let o4 := smoothLoop x0 y0 MaxIterations 4 o
    smoothColor o4.numIterations o4.cr o4.ci
  else black

/-! ## One interlaced shift task: `calculateInterlacedShift` (lines 216-303) -/

/-- What one call of `calculateInterlacedShift` reads from outside its
arguments: the flags as seen by its `k`-th check pair, the results of its
`k`-th `qrand()` call, the member `scaleFactor` (the function has no parameter
of that name, so lines 245 and 249 read `this->scaleFactor`) as stored when the
`k`-th draw is used, and the colour of lines 287-292. -/
structure TaskEnv where
  restartAt : Nat → Bool
  abortAt : Nat → Bool
  qrand : Nat → Nat
  scaleFactorAt : Nat → ℚ
  smoothColor : Nat → ℚ → ℚ → QColor

/-- The progress of one call: the number of flag check pairs executed, the
number of `qrand()` calls made, and the `setPixelColor` calls made so far, in
order, each with its buffer coordinates and colour. -/
structure TaskState where
  checks : Nat
  draws : Nat
  image : List (Int × Int × Option QColor)

/-- The expressions of lines 242-249:
`center + lerp(d - 0.5, d + 0.5, 1 / double(r)) * scaleFactor`, where `r` is
the value returned by `qrand()`.  For `r = 0` the quotient `1 / 0.0` is an IEEE
infinity and the result is not a number of the model: `none`. -/
def sampleCoord (center : ℚ) (d : Int) (r : Nat) (scaleFactor : ℚ) : Option ℚ :=
  if r = 0 then none
  else some (center + lerp ((d : ℚ) - 1 / 2) ((d : ℚ) + 1 / 2) (1 / (r : ℚ)) * scaleFactor)

/-- The colour of one sample (lines 242-295) from the two draws `rx`, `ry` and
the values `sx`, `sy` of the member `scaleFactor` read with them. -/
def sampleAt (smoothColor : Nat → ℚ → ℚ → QColor) (center_x center_y : ℚ)
    (MaxIterations : Nat) (x_d y_d : Int) (rx ry : Nat) (sx sy : ℚ) : Option QColor :=
  match sampleCoord center_x x_d rx sx, sampleCoord center_y y_d ry sy with
  | some x0, some y0 => some (sampleColor smoothColor x0 y0 MaxIterations)
  | _, _ => none

/-- The supersampling `for` loop of lines 238-296.  The first argument is the
number of rounds still to run (`supersample_scale` at the call).  The result
holds the state, `sample_colors`, and whether the loop was left by `return`. -/
def sampleLoop (env : TaskEnv) (center_x center_y : ℚ) (MaxIterations : Nat)
    (x_d y_d : Int) :
    Nat → TaskState → List (Option QColor) → TaskState × List (Option QColor) × Bool
  | 0, s, sample_colors => (s, sample_colors, false)
  | n + 1, s, sample_colors =>
    if env.restartAt s.checks then
      ({ s with checks := s.checks + 1 }, sample_colors, false)
    else if env.abortAt s.checks then
      ({ s with checks := s.checks + 1 }, sample_colors, true)
    else
      let c := sampleAt env.smoothColor center_x center_y MaxIterations x_d y_d
        (env.qrand s.draws) (env.qrand (s.draws + 1))
        (env.scaleFactorAt s.draws) (env.scaleFactorAt (s.draws + 1))
      sampleLoop env center_x center_y MaxIterations x_d y_d n
        { s with checks := s.checks + 1, draws := s.draws + 2 } (sample_colors ++ [c])

/-- The colour passed to `setPixelColor` at line 300: `colorAvgSum` of the
samples.  It is `none` when a sample is outside the model or when
`supersample_scale` is `0` (an integer division by zero). -/
def pixelColor (sample_colors : List (Option QColor)) (supersample_scale : Int) :
    Option QColor :=
  if supersample_scale = 0 then none
  else (sample_colors.allSome).map (fun cs => colorAvgSum cs supersample_scale)

/-- The values taken by the control variable of
`for (v = lo; v < hi; v += gap)` (lines 223 and 228), whose body never assigns
`v`.  The first argument is fuel, one unit for each round; for `gap ≥ 1` the
loop makes at most `hi - lo` rounds, so that much fuel is enough
(`forRange_fuel`).  The source passes `gap = 10` only; for `gap ≤ 0` the C++
loop would not end. -/
def forRange : Nat → Int → Int → Int → List Int
  | 0, _, _, _ => []
  | fuel + 1, v, hi, gap => if v < hi then v :: forRange fuel (v + gap) hi gap else []

/-- The inner `for` loop of lines 228-301 over the values `xs` of `x`.  The
result holds the state and whether the loop was left by `return`. -/
def colLoop (env : TaskEnv) (halfWidth halfHeight shift_x : Int) (center_x center_y : ℚ)
    (supersample_scale : Int) (MaxIterations : Nat) (y_d : Int) :
    List Int → TaskState → TaskState × Bool
  | [], s => (s, false)
  | x :: xs, s =>
    if ¬ (x + shift_x < halfWidth) then (s, false)
    else
      let x_d := x + shift_x
      if env.restartAt s.checks then ({ s with checks := s.checks + 1 }, false)
      else if env.abortAt s.checks then ({ s with checks := s.checks + 1 }, true)
      else
        let r := sampleLoop env center_x center_y MaxIterations x_d y_d
          supersample_scale.toNat { s with checks := s.checks + 1 } []
        if r.2.2 then (r.1, true)
        else
          colLoop env halfWidth halfHeight shift_x center_x center_y supersample_scale
            MaxIterations y_d xs
            { r.1 with image := r.1.image ++
                [(x_d + halfWidth, y_d + halfHeight, pixelColor r.2.1 supersample_scale)] }

/-- The outer `for` loop of lines 223-302 over the values `ys` of `y`. -/
def rowLoop (env : TaskEnv) (halfWidth halfHeight interlaced_gap shift_x shift_y : Int)
    (center_x center_y : ℚ) (supersample_scale : Int) (MaxIterations : Nat) :
    List Int → TaskState → TaskState × Bool
  | [], s => (s, false)
  | y :: ys, s =>
    if ¬ (y + shift_y < halfHeight) then (s, false)
    else
      let y_d := y + shift_y
      if env.restartAt s.checks then ({ s with checks := s.checks + 1 }, false)
      else if env.abortAt s.checks then ({ s with checks := s.checks + 1 }, true)
      else
        let r := colLoop env halfWidth halfHeight shift_x center_x center_y
          supersample_scale MaxIterations y_d
          (forRange (2 * halfWidth).toNat (-halfWidth) halfWidth interlaced_gap)
          { s with checks := s.checks + 1 }
        if r.2 then r
        else
          rowLoop env halfWidth halfHeight interlaced_gap shift_x shift_y center_x center_y
            supersample_scale MaxIterations ys r.1

/-- The function `calculateInterlacedShift` (lines 216-303): the pixels it has
written when it returns, in order.  The image argument is the list of writes. -/
def calculateInterlacedShift (env : TaskEnv)
    (halfWidth halfHeight interlaced_gap shift_x shift_y : Int) (center_x center_y : ℚ)
    (supersample_scale : Int) (MaxIterations : Nat) : TaskState :=
  (rowLoop env halfWidth halfHeight interlaced_gap shift_x shift_y center_x center_y
    supersample_scale MaxIterations
    (forRange (2 * halfHeight).toNat (-halfHeight) halfHeight interlaced_gap)
    ⟨0, 0, []⟩).1

/-- The buffer coordinates written by a task. -/
def written (s : TaskState) : List (Int × Int) :=
  s.image.map (fun w => (w.1, w.2.1))

/-- A task observes no cancellation: both flags are clear at every check. -/
def NoCancel (env : TaskEnv) : Prop :=
  ∀ k, env.restartAt k = false ∧ env.abortAt k = false

/-! ## The shift list of `run()` (lines 183-198) -/

/-- The `while` loop of lines 190-198 that fills `shifts`.  The first argument
is fuel, one unit for each round. -/
def shiftLoop (interlaced_gap : Int) : Nat → Int → Int → List (Int × Int)
  | 0, _, _ => []
  | fuel + 1, shift_x, shift_y =>
    if shift_y < interlaced_gap then
      (shift_x, shift_y) ::
        (if shift_x < interlaced_gap - 1 then
          shiftLoop interlaced_gap fuel (shift_x + 1) shift_y
        else shiftLoop interlaced_gap fuel 0 (shift_y + 1))
    else []

/-- The vector `shifts` built by lines 183-198 (`interlaced_gap = 10` in the
source); the loop makes `interlaced_gap * interlaced_gap` rounds. -/
def shifts (interlaced_gap : Int) : List (Int × Int) :=
  shiftLoop interlaced_gap (interlaced_gap * interlaced_gap).toNat 0 0

/-! ## The controller and the worker loop `run()` (lines 94-214) -/

/-- The render parameters: the member fields written by `render()` and copied
by `run()` into its locals. -/
structure Params where
  centerX : ℚ
  centerY : ℚ
  scaleFactor : ℚ
  supersampleScale : Int
  width : Int
  height : Int
  maxIterations : Nat
deriving DecidableEq, Repr

/-- The program locations of the worker thread.  `stopped`: the thread is not
running (never started, or `run()` has returned).  `top`: about to execute
lines 161-178.  `check180` to `check187`: about to execute the `if` of that
line.  `tasks`: lines 188-206 (shift list, image allocation, `blockingMap`).
`emit208`: about to execute line 208.  `lock209`: about to execute lines
209-212.  `waiting`: blocked inside `condition.wait` (line 210).  `woken`:
woken up inside `condition.wait`, about to execute lines 211-212. -/
inductive Loc where
  | stopped
  | top
  | check180
  | check181
  | check186
  | check187
  | tasks
  | emit208
  | lock209
  | waiting
  | woken
deriving DecidableEq, Repr

/-- The state of a `RenderThread` object and of its worker thread.  `stored`
holds the member fields, `snapshot` the locals of `run()`, `emitted` the
`renderedImage` signals emitted so far, each recorded by its `scaleFactor`
argument (the pixel data is the work of `calculateInterlacedShift`). -/
structure Thread where
  stored : Params
  _restart : Bool
  _abort : Bool
  loc : Loc
  snapshot : Params
  emitted : List ℚ
deriving DecidableEq, Repr

/-- The method `isRunning()` of `QThread`. -/
def isRunning (t : Thread) : Bool := decide (t.loc ≠ Loc.stopped)

/-- The object after its constructor (lines 94-96): both flags clear, the
thread not started. -/
def initial (p : Params) : Thread :=
  ⟨p, false, false, Loc.stopped, p, []⟩

/-- The double `1 / (scaleFactor * 5000)` of line 175: the product and the
quotient are binary64 operations, each rounded by `roundDouble`.  A product
that overflows is an infinity and its reciprocal is the double `0`; the
reciprocal of a zero product is an infinity (`none`), as is a quotient that
overflows. -/
def scaleQuotient (scaleFactor : ℚ) : Option ℚ :=
  match roundDouble (scaleFactor * 5000) with
  | none => some 0
  | some p => if p = 0 then none else roundDouble (1 / p)

/-- Lines 173-178: the iteration budget used by a pass.  The cast
`static_cast<ulong>` truncates the double quotient, which for a quotient
`f ≥ 0` is `⌊f⌋`; the product and the sum are taken in 64-bit unsigned
arithmetic.  For a negative or infinite quotient the C++ cast is undefined;
the model yields the factor `0` there. -/
def passMaxIterations (scaleFactor : ℚ) (maxIterations : Nat) : Nat :=
  if maxIterations = 0 then
    let scaleIterationsFactor :=
      match scaleQuotient scaleFactor with
      | some f => (Int.toNat ⌊f⌋) % 2 ^ 64
      | none => 0
    (1000 + scaleIterationsFactor * scaleIterationsFactor) % 2 ^ 64
  else maxIterations

/-- The method `render()` (lines 125-142).  `start()` puts the worker at the
top of `run()`; `condition.wakeOne()` wakes the worker if it is waiting. -/
def render (t : Thread) (p : Params) : Thread :=
  let t1 := { t with stored := p }
  if ¬ isRunning t1 then { t1 with loc := Loc.top }
  else { t1 with _restart := true, loc := if t1.loc = Loc.waiting then Loc.woken else t1.loc }

/-- The method `restart()` (lines 144-148). -/
def restart (t : Thread) : Thread := { t with _restart := true }

/-- The method `abort()` (lines 150-156) up to its `wait()`, which blocks the
caller until the worker has stopped. -/
def abort (t : Thread) : Thread :=
  { t with _abort := true, loc := if t.loc = Loc.waiting then Loc.woken else t.loc }

/-- One step of the worker thread in `run()` (lines 158-214).  A `break` at
lines 180 and 186 leaves the `forever` loop, after which `run()` returns. -/
def workerStep (t : Thread) : Thread :=
  match t.loc with
  | Loc.stopped => t
  | Loc.top =>
    { t with
      snapshot :=
        { t.stored with
          maxIterations := passMaxIterations t.stored.scaleFactor t.stored.maxIterations }
      loc := Loc.check180 }
  | Loc.check180 => if t._restart then { t with loc := Loc.stopped } else { t with loc := Loc.check181 }
  | Loc.check181 => if t._abort then { t with loc := Loc.stopped } else { t with loc := Loc.check186 }
  | Loc.check186 => if t._restart then { t with loc := Loc.stopped } else { t with loc := Loc.check187 }
  | Loc.check187 => if t._abort then { t with loc := Loc.stopped } else { t with loc := Loc.tasks }
  | Loc.tasks => { t with loc := Loc.emit208 }
  | Loc.emit208 =>
    if ¬ t._restart then
      { t with emitted := t.emitted ++ [t.snapshot.scaleFactor], loc := Loc.lock209 }
    else { t with loc := Loc.lock209 }
  | Loc.lock209 =>
    if ¬ t._restart then { t with loc := Loc.waiting }
    else { t with _restart := false, loc := Loc.top }
  | Loc.waiting => t
  | Loc.woken => { t with _restart := false, loc := Loc.top }

/-- A call made on the object by another thread. -/
inductive Call where
  | render (p : Params)
  | restart
  | abort
deriving DecidableEq, Repr

/-- The effect of one call. -/
def call (t : Thread) : Call → Thread
  | Call.render p => render t p
  | Call.restart => restart t
  | Call.abort => abort t

/-- The effect of a sequence of calls, in order. -/
def calls (t : Thread) (cs : List Call) : Thread := cs.foldl call t

/-- An event of an execution: a step of the worker or a call by another
thread. -/
inductive Event where
  | step
  | call (c : Call)
deriving DecidableEq, Repr

/-- The effect of one event. -/
def exec (t : Thread) : Event → Thread
  | Event.step => workerStep t
  | Event.call c => call t c

/-- The effect of a sequence of events, in order. -/
def execAll (t : Thread) (es : List Event) : Thread := es.foldl exec t

/-! ## The regions named by the specification -/

/-- The main cardioid as the closed-form inequality on `c = (x0, y0)`. -/
def mainCardioid (x0 y0 : ℚ) : Prop :=
  ((x0 - 1 / 4) ^ 2 + y0 ^ 2) * (((x0 - 1 / 4) ^ 2 + y0 ^ 2) + (x0 - 1 / 4)) < y0 ^ 2 / 4

/-- The period-2 bulb as the closed-form inequality on `c = (x0, y0)`. -/
def period2Bulb (x0 y0 : ℚ) : Prop :=
  (x0 + 1) ^ 2 + y0 ^ 2 < 1 / 16

/-! ## One pass over all shifts (lines 169-170 and 200-206) -/

/-- The buffer coordinates written during `QtConcurrent::blockingMap(shifts, calc)`
(lines 200-206) for an image of size `width x height`: those of every task, in
the order of `shifts`.  `halfWidth` and `halfHeight` are computed as in lines
169-170 (C++ integer division) and `interlaced_gap` is `10` (line 183).  Each
task has its own observations `envs shift`. -/
def blockingMapWritten (envs : Int × Int → TaskEnv) (width height : Int)
    (center_x center_y : ℚ) (supersampleScale : Int) (maxIterations : Nat) :
    List (Int × Int) :=
  (shifts 10).flatMap (fun shift =>
    written (calculateInterlacedShift (envs shift) (Int.tdiv width 2) (Int.tdiv height 2) 10
      shift.1 shift.2 center_x center_y supersampleScale maxIterations))

/-- Observations without any cancellation: both flags always clear, every
`qrand()` result `1`, the member `scaleFactor` equal to `sf` throughout, and
white for every smoothed colour. -/
def quietEnv (sf : ℚ) : TaskEnv :=
  ⟨fun _ => false, fun _ => false, fun _ => 1, fun _ => sf, fun _ _ _ => ⟨255, 255, 255⟩⟩

/-! ## Concrete parameters and executions -/

/-- Degenerate parameters in the sense of the specification: a non-positive
image width or height, a non-positive `scaleFactor`, or `supersampleCount < 1`. -/
def Degenerate (p : Params) : Prop :=
  p.width ≤ 0 ∨ p.height ≤ 0 ∨ p.scaleFactor ≤ 0 ∨ p.supersampleScale < 1

/-- The parameters of Scenario A. -/
def paramsA : Params := ⟨-1 / 2, 0, 1 / 200, 1, 100, 100, 100⟩

/-- Parameters that are degenerate in every respect. -/
def paramsZero : Params := ⟨0, 0, 0, 0, 0, 0, 0⟩

/-- A second valid request: Scenario A zoomed in. -/
def paramsB : Params := ⟨-1 / 2, 0, 1 / 400, 1, 100, 100, 100⟩

/-- An execution that brings the worker into the shift tasks of its first
pass: `render(paramsA)` on a fresh object starts the thread, which then runs
lines 161-187 with both flags clear. -/
def intoTasks : List Event :=
  [Event.call (Call.render paramsA), Event.step, Event.step, Event.step, Event.step,
    Event.step]

/-- The state reached by `intoTasks`. -/
def atTasks : Thread := execAll (initial paramsA) intoTasks

/-- The worker at the emission check of line 208 after a `render(paramsB)` call
arrived during the shift tasks of the first pass. -/
def atEmitSuperseded : Thread :=
  execAll atTasks [Event.call (Call.render paramsB), Event.step]

/-! ## The pixels of one shift -/

/-- Observations without any cancellation in which every `qrand()` call
returns `0`; the member `scaleFactor` is `sf` throughout. -/
def zeroDrawEnv (sf : ℚ) : TaskEnv :=
  ⟨fun _ => false, fun _ => false, fun _ => 0, fun _ => sf, fun _ _ _ => ⟨255, 255, 255⟩⟩

/-! ## The palette (lines 74-79 and 94-120) -/

/-- The channels of a `QColor` as Qt stores them: 16-bit values (`ct.argb`). -/
structure Rgb16 where
  red : Int
  green : Int
  blue : Int
deriving DecidableEq, Repr

/-- The method `setRgb(r, g, b)`: every 8-bit channel is stored as
`channel * 0x101`. -/
def setRgb (c : QColor) : Rgb16 := ⟨c.red * 257, c.green * 257, c.blue * 257⟩

/-- The methods `red()`, `green()`, `blue()`: the stored channel shifted right
by 8 bits. -/
def toQColor (c : Rgb16) : QColor := ⟨c.red / 256, c.green / 256, c.blue / 256⟩

/-- The function `qRound` on a non-negative value: `int(d + 0.5)`. -/
def qRound (d : ℚ) : Int := ⌊d + 1 / 2⌋

/-- The function `QColor::fromRgbF(r, g, b)`: every channel is stored as
`qRound(channel * USHRT_MAX)`. -/
def fromRgbF (r g b : ℚ) : Rgb16 := ⟨qRound (r * 65535), qRound (g * 65535), qRound (b * 65535)⟩

/-- The function `myColorInterpolator` (lines 74-79); `redF()` is the stored
channel divided by `USHRT_MAX`. -/
def myColorInterpolator (start finish : Rgb16) (progress : ℚ) : Rgb16 :=
  fromRgbF (lerp ((start.red : ℚ) / 65535) ((finish.red : ℚ) / 65535) progress)
    (lerp ((start.green : ℚ) / 65535) ((finish.green : ℚ) / 65535) progress)
    (lerp ((start.blue : ℚ) / 65535) ((finish.blue : ℚ) / 65535) progress)

/-- The colours given to `mapping[0]` ... `mapping[11]` by the `setRgb` calls
of lines 100-113. -/
def mappingSet : List QColor :=
  [⟨25, 7, 26⟩, ⟨9, 1, 47⟩, ⟨0, 7, 100⟩, ⟨12, 44, 138⟩, ⟨24, 82, 177⟩, ⟨57, 125, 209⟩,
    ⟨211, 236, 248⟩, ⟨241, 233, 191⟩, ⟨248, 201, 95⟩, ⟨255, 170, 0⟩, ⟨204, 128, 0⟩,
    ⟨153, 87, 0⟩]

/-- The number of entries of the array `QColor mapping[16]` (line 98). -/
def mappingSize : Nat := 16

/-- Whether the constructor assigns `mapping[k]` an explicit colour. -/
def mappingAssigned (k : Nat) : Bool := (mappingSet.get? k).isSome

/-- The entry `mapping[k]` when the loop of lines 116-120 runs: the colour set
by `setRgb`, or the default-constructed `QColor` (an invalid colour whose
channels are 0) for an entry that is never set. -/
def mapping (k : Nat) : Rgb16 :=
  match mappingSet.get? k with
  | some c => setRgb c
  | none => ⟨0, 0, 0⟩

/-- The index `int(i * step)` of line 118, with `step = 12 / double(colormapSize)`
(line 115).  The constant `colormapSize` is declared in `renderthread.h` and is
a parameter here. -/
def controlIndex (colormapSize i : Nat) : Nat :=
  Int.toNat ⌊(i : ℚ) * (12 / (colormapSize : ℚ))⌋

/-- The blend factor `i * step - floor(i * step)` of line 119. -/
def blendFactor (colormapSize i : Nat) : ℚ :=
  (i : ℚ) * (12 / (colormapSize : ℚ)) - ⌊(i : ℚ) * (12 / (colormapSize : ℚ))⌋

/-- The entry `colormap[i]` computed by lines 115-120. -/
def colormapEntry (colormapSize i : Nat) : Rgb16 :=
  myColorInterpolator (mapping (controlIndex colormapSize i))
    (mapping (controlIndex colormapSize i + 1)) (blendFactor colormapSize i)

/-! ## The escape loop without the interior shortcut -/

/-- Lines 255-270 with the interior shortcut disabled: the escape loop run from
`z = c` with `numIterations` starting at 0. -/
def bruteForce (x0 y0 : ℚ) (MaxIterations : Nat) : Orbit :=
  escapeLoop x0 y0 MaxIterations MaxIterations ⟨x0, y0, 0, 0, 0⟩

/-! # Theorems -/

/-! ## The escape loop -/

theorem escapeLoop_fuel (x0 y0 : ℚ) (M : Nat) (k : Nat) :
    ∀ (fuel : Nat) (o : Orbit), M - o.numIterations ≤ fuel →
      escapeLoop x0 y0 M (fuel + k) o = escapeLoop x0 y0 M fuel o := by
  intro fuel
  induction fuel with
  | zero =>
    intro o h
    have hn : ¬ o.numIterations < M := by omega
    cases k with
    | zero => rfl
    | succ k => simp [escapeLoop, hn]
  | succ fuel ih =>
    intro o h
    rw [show fuel + 1 + k = (fuel + k) + 1 by omega]
    simp only [escapeLoop]
    split_ifs with hc hp
    · rfl
    · exact ih _ (by simp only; omega)
    · rfl

theorem escapeLoop_counters (x0 y0 : ℚ) (M : Nat) :
    ∀ (fuel : Nat) (o : Orbit),
      (escapeLoop x0 y0 M fuel o).iterations ≤ o.iterations + (M - o.numIterations) ∧
      (escapeLoop x0 y0 M fuel o).updates + o.iterations ≤
        (escapeLoop x0 y0 M fuel o).iterations + o.updates := by
  intro fuel
  induction fuel with
  | zero => intro o; simp only [escapeLoop]; omega
  | succ fuel ih =>
    intro o
    simp only [escapeLoop]
    split_ifs with hc hp
    · simp only; omega
    · have h := ih ⟨o.cr * o.cr - o.ci * o.ci + x0, 2 * o.cr * o.ci + y0,
        o.numIterations + 1, o.iterations + 1, o.updates + 1⟩
      simp only at h
      omega
    · omega

theorem smoothLoop_counters (x0 y0 : ℚ) (M : Nat) :
    ∀ (k : Nat) (o : Orbit),
      (smoothLoop x0 y0 M k o).iterations ≤ o.iterations + k ∧
      (smoothLoop x0 y0 M k o).updates + o.iterations ≤
        (smoothLoop x0 y0 M k o).iterations + o.updates := by
  intro k
  induction k with
  | zero => intro o; simp only [smoothLoop]; omega
  | succ k ih =>
    intro o
    simp only [smoothLoop]
    split_ifs with hp
    · simp only; omega
    · have h := ih ⟨o.cr * o.cr - o.ci * o.ci + x0, 2 * o.cr * o.ci + y0,
        o.numIterations, o.iterations + 1, o.updates + 1⟩
      simp only at h
      omega

theorem escapeLoop_done (x0 y0 : ℚ) (M : Nat) (fuel : Nat) (o : Orbit)
    (h : o.numIterations = M) : escapeLoop x0 y0 M fuel o = o := by
  cases fuel with
  | zero => rfl
  | succ fuel => simp [escapeLoop, h]

theorem cardioidCheck_iff (x0 y0 : ℚ) : cardioidCheck x0 y0 = true ↔ mainCardioid x0 y0 := by
  unfold cardioidCheck mainCardioid
  simp only [decide_eq_true_eq]
  have e : x0 * x0 - x0 / 2 + 1 / 16 + y0 * y0 = (x0 - 1 / 4) ^ 2 + y0 ^ 2 := by ring
  have e2 : y0 * y0 / 4 = y0 ^ 2 / 4 := by ring
  rw [e, e2]

/-- C8: for every sample point and every `MaxIterations`, the escape loop and
the smoothing loop together execute at most `MaxIterations + 4` rounds, the
assignments of `z^2 + c` to `z` are no more than the rounds, and the escape
loop terminates: the fuel `MaxIterations` is enough, more fuel changes
nothing. -/
theorem sample_iterations_bounded (x0 y0 : ℚ) (MaxIterations : Nat) :
    (sampleOrbit x0 y0 MaxIterations).iterations ≤ MaxIterations + 4 ∧
    (sampleOrbit x0 y0 MaxIterations).updates ≤ (sampleOrbit x0 y0 MaxIterations).iterations ∧
    ∀ k, escapeLoop x0 y0 MaxIterations (MaxIterations + k) (sampleStart x0 y0 MaxIterations) =
      sampleEscape x0 y0 MaxIterations := by
  have he := escapeLoop_counters x0 y0 MaxIterations MaxIterations
    (sampleStart x0 y0 MaxIterations)
  have hs := smoothLoop_counters x0 y0 MaxIterations 4 (sampleEscape x0 y0 MaxIterations)
  have h0 : (sampleStart x0 y0 MaxIterations).iterations = 0 := rfl
  have h1 : (sampleStart x0 y0 MaxIterations).updates = 0 := rfl
  rw [h0, h1] at he
  refine ⟨?_, ?_, ?_⟩
  · unfold sampleOrbit
    simp only
    split_ifs
    · unfold sampleEscape at hs ⊢
      omega
    · unfold sampleEscape
      omega
  · unfold sampleOrbit
    simp only
    split_ifs
    · unfold sampleEscape at hs ⊢
      omega
    · unfold sampleEscape
      omega
  · intro k
    exact escapeLoop_fuel x0 y0 MaxIterations k MaxIterations _ (by omega)

/-! ## Rounding to double -/

theorem roundHalfEven_of_near (m : ℚ) (n : Int) (h1 : (n : ℚ) - 1 / 2 < m)
    (h2 : m < n + 1 / 2) : roundHalfEven m = n := by
  unfold roundHalfEven
  rcases le_or_lt (n : ℚ) m with h | h
  · have hf : ⌊m⌋ = n := by
      rw [Int.floor_eq_iff]
      constructor
      · exact h
      · linarith
    simp only [hf]
    rw [if_pos (by linarith)]
  · have hf : ⌊m⌋ = n - 1 := by
      rw [Int.floor_eq_iff]
      push_cast
      constructor
      · linarith
      · linarith
    simp only [hf]
    push_cast
    rw [if_neg (by linarith), if_pos (by linarith)]
    ring

theorem roundDouble_of_bounds (x r : ℚ) (e n : Int) (he : -1022 ≤ e)
    (h1 : (2 : ℚ) ^ e ≤ |x|) (h2 : |x| < (2 : ℚ) ^ (e + 1))
    (hn1 : (n : ℚ) - 1 / 2 < x / (2 : ℚ) ^ (e - 52))
    (hn2 : x / (2 : ℚ) ^ (e - 52) < n + 1 / 2)
    (hr : r = n * (2 : ℚ) ^ (e - 52)) (hfin : |r| < (2 : ℚ) ^ (1024 : Int)) :
    roundDouble x = some r := by
  have hx : 0 < |x| := lt_of_lt_of_le (zpow_pos (by norm_num) e) h1
  have hl1 : e ≤ Int.log 2 |x| := by
    apply (Int.zpow_le_iff_le_log (by norm_num) hx).1
    simpa using h1
  have hl2 : Int.log 2 |x| < e + 1 := by
    apply (Int.lt_zpow_iff_log_lt (by norm_num) hx).1
    simpa using h2
  have hlog : Int.log 2 |x| = e := by omega
  unfold roundDouble
  simp only [hlog, max_eq_left he, roundHalfEven_of_near _ n hn1 hn2]
  rw [← hr, if_pos hfin]

theorem roundDouble_zero : roundDouble 0 = some 0 := by
  unfold roundDouble
  have h : roundHalfEven (0 / (2 : ℚ) ^ (max (Int.log 2 |(0 : ℚ)|) (-1022) - 52)) = 0 := by
    apply roundHalfEven_of_near <;> norm_num
  simp only [h]
  norm_num

theorem roundDouble_of_eq_zero (x : ℚ) (h : x = 0) : roundDouble x = some 0 := by
  rw [h]
  exact roundDouble_zero

theorem roundDouble_of_pos (x r : ℚ) (e n : Int) (he : -1022 ≤ e)
    (h1 : (2 : ℚ) ^ e ≤ x) (h2 : x < (2 : ℚ) ^ (e + 1))
    (hn1 : (n : ℚ) - 1 / 2 < x / (2 : ℚ) ^ (e - 52))
    (hn2 : x / (2 : ℚ) ^ (e - 52) < n + 1 / 2)
    (hr : r = n * (2 : ℚ) ^ (e - 52)) (hlo : -(2 : ℚ) ^ (1024 : Int) < r)
    (hhi : r < (2 : ℚ) ^ (1024 : Int)) :
    roundDouble x = some r := by
  have hfin : |r| < (2 : ℚ) ^ (1024 : Int) := abs_lt.2 ⟨hlo, hhi⟩
  have hx : 0 < x := lt_of_lt_of_le (zpow_pos (by norm_num) e) h1
  apply roundDouble_of_bounds x r e n he _ _ hn1 hn2 hr hfin
  · rw [abs_of_pos hx]; exact h1
  · rw [abs_of_pos hx]; exact h2

theorem roundDouble_of_neg (x r : ℚ) (e n : Int) (he : -1022 ≤ e)
    (h1 : (2 : ℚ) ^ e ≤ -x) (h2 : -x < (2 : ℚ) ^ (e + 1))
    (hn1 : (n : ℚ) - 1 / 2 < x / (2 : ℚ) ^ (e - 52))
    (hn2 : x / (2 : ℚ) ^ (e - 52) < n + 1 / 2)
    (hr : r = n * (2 : ℚ) ^ (e - 52)) (hlo : -(2 : ℚ) ^ (1024 : Int) < r)
    (hhi : r < (2 : ℚ) ^ (1024 : Int)) :
    roundDouble x = some r := by
  have hfin : |r| < (2 : ℚ) ^ (1024 : Int) := abs_lt.2 ⟨hlo, hhi⟩
  have hx : x < 0 := by
    have := lt_of_lt_of_le (zpow_pos (by norm_num : (0 : ℚ) < 2) e) h1
    linarith
  apply roundDouble_of_bounds x r e n he _ _ hn1 hn2 hr hfin
  · rw [abs_of_neg hx]; exact h1
  · rw [abs_of_neg hx]; exact h2

theorem roundHalfEven_nonneg (m : ℚ) (h : 0 ≤ m) : 0 ≤ roundHalfEven m := by
  have hf : 0 ≤ ⌊m⌋ := Int.floor_nonneg.2 h
  unfold roundHalfEven
  simp only
  split_ifs <;> omega

theorem roundDouble_nonneg (x r : ℚ) (hx : 0 ≤ x) (h : roundDouble x = some r) : 0 ≤ r := by
  unfold roundDouble at h
  simp only at h
  split_ifs at h
  have e := Option.some.inj h
  rw [← e]
  have hu : (0 : ℚ) < 2 ^ (max (Int.log 2 |x|) (-1022) - 52) := zpow_pos (by norm_num) _
  have hn : 0 ≤ roundHalfEven (x / 2 ^ (max (Int.log 2 |x|) (-1022) - 52)) :=
    roundHalfEven_nonneg _ (div_nonneg hx hu.le)
  have hn2 : (0 : ℚ) ≤ (roundHalfEven (x / 2 ^ (max (Int.log 2 |x|) (-1022) - 52)) : ℚ) := by
    exact_mod_cast hn
  exact mul_nonneg hn2 hu.le

theorem scaleQuotient_nonneg (scaleFactor f : ℚ) (hs : 0 < scaleFactor)
    (h : scaleQuotient scaleFactor = some f) : 0 ≤ f := by
  unfold scaleQuotient at h
  cases hp : roundDouble (scaleFactor * 5000) with
  | none =>
    rw [hp] at h
    simp only at h
    rw [← Option.some.inj h]
  | some p =>
    rw [hp] at h
    simp only at h
    have hp0 : 0 ≤ p := roundDouble_nonneg _ _ (by positivity) hp
    split_ifs at h with hz
    exact roundDouble_nonneg _ _ (by positivity) h

theorem cardioidCheckDouble_eval (x0 y0 xx xh d s yy q a qa lhs rhs : ℚ)
    (h1 : roundDouble (x0 * x0) = some xx) (h2 : roundDouble (x0 / 2) = some xh)
    (h3 : roundDouble (xx - xh) = some d) (h4 : roundDouble (d + 1 / 16) = some s)
    (h5 : roundDouble (y0 * y0) = some yy) (h6 : roundDouble (s + yy) = some q)
    (h7 : roundDouble (x0 - 1 / 4) = some a) (h8 : roundDouble (q + a) = some qa)
    (h9 : roundDouble (q * qa) = some lhs) (h10 : roundDouble (yy / 4) = some rhs) :
    cardioidCheckDouble x0 y0 = some (decide (lhs < rhs)) := by
  simp only [cardioidCheckDouble, h1, h2, h3, h4, h5, h6, h7, h8, h9, h10, bind, Option.bind,
    pure]

theorem scaleQuotient_eval (scaleFactor p f : ℚ) (h1 : roundDouble (scaleFactor * 5000) = some p)
    (hp : p ≠ 0) (h2 : roundDouble (1 / p) = some f) : scaleQuotient scaleFactor = some f := by
  unfold scaleQuotient
  rw [h1]
  show (if p = 0 then none else roundDouble (1 / p)) = some f
  rw [if_neg hp, h2]

/-! ## The interior shortcut -/

/-- C10, as the code has it: the shortcut is the cardioid test of lines 252-253
alone, as the doubles evaluate it.  For every sample point for which that
test is true, the iteration count is set to `MaxIterations` directly and the
escape loop executes no round: with any fuel it leaves the state unchanged,
and its round counter stays `0`.  (There is no test for the period-2 bulb.) -/
theorem cardioid_shortcut (x0 y0 : ℚ) (MaxIterations : Nat)
    (h : cardioidCheckDouble x0 y0 = some true) :
    (sampleStartDouble x0 y0 MaxIterations).numIterations = MaxIterations ∧
    (∀ fuel : Nat,
      escapeLoop x0 y0 MaxIterations fuel (sampleStartDouble x0 y0 MaxIterations) =
        sampleStartDouble x0 y0 MaxIterations) ∧
    (escapeLoop x0 y0 MaxIterations MaxIterations
      (sampleStartDouble x0 y0 MaxIterations)).iterations = 0 := by
  have hs : (sampleStartDouble x0 y0 MaxIterations).numIterations = MaxIterations := by
    simp [sampleStartDouble, h]
  have he : ∀ fuel : Nat,
      escapeLoop x0 y0 MaxIterations fuel (sampleStartDouble x0 y0 MaxIterations) =
        sampleStartDouble x0 y0 MaxIterations :=
    fun fuel => escapeLoop_done x0 y0 MaxIterations fuel _ hs
  refine ⟨hs, he, ?_⟩
  rw [he]
  rfl

theorem cardioidCheckDouble_origin : cardioidCheckDouble 0 0 = some true := by
  have h := cardioidCheckDouble_eval 0 0
      0 0 0 (1 / 16) 0 (1 / 16) (-(1 / 4)) (-(3 / 16)) (-(3 / 256)) 0
      (roundDouble_of_eq_zero _ (by norm_num))
      (roundDouble_of_eq_zero _ (by norm_num))
      (roundDouble_of_eq_zero _ (by norm_num))
      (by apply roundDouble_of_pos _ _ (-4) 4503599627370496 <;> norm_num)
      (roundDouble_of_eq_zero _ (by norm_num))
      (by apply roundDouble_of_pos _ _ (-4) 4503599627370496 <;> norm_num)
      (by apply roundDouble_of_neg _ _ (-2) (-4503599627370496) <;> norm_num)
      (by apply roundDouble_of_neg _ _ (-3) (-6755399441055744) <;> norm_num)
      (by apply roundDouble_of_neg _ _ (-7) (-6755399441055744) <;> norm_num)
      (roundDouble_of_eq_zero _ (by norm_num))
  rw [h]
  norm_num

/-- Witness of C10 at the point `c = 0` with `MaxIterations = 5`. -/
theorem cardioid_shortcut_witness :
    cardioidCheckDouble 0 0 = some true ∧ (sampleStartDouble 0 0 5).numIterations = 5 ∧
      escapeLoop 0 0 5 5 (sampleStartDouble 0 0 5) = sampleStartDouble 0 0 5 ∧
      (escapeLoop 0 0 5 5 (sampleStartDouble 0 0 5)).iterations = 0 :=
  ⟨cardioidCheckDouble_origin, (cardioid_shortcut 0 0 5 cardioidCheckDouble_origin).1,
    (cardioid_shortcut 0 0 5 cardioidCheckDouble_origin).2.1 5,
    (cardioid_shortcut 0 0 5 cardioidCheckDouble_origin).2.2⟩

theorem cardioidCheckDouble_bulb : cardioidCheckDouble (-1) 0 = some false := by
  have h := cardioidCheckDouble_eval (-1) 0
      1 (-(1 / 2)) (3 / 2) (25 / 16) 0 (25 / 16) (-(5 / 4)) (5 / 16) (125 / 256) 0
      (by apply roundDouble_of_pos _ _ 0 4503599627370496 <;> norm_num)
      (by apply roundDouble_of_neg _ _ (-1) (-4503599627370496) <;> norm_num)
      (by apply roundDouble_of_pos _ _ 0 6755399441055744 <;> norm_num)
      (by apply roundDouble_of_pos _ _ 0 7036874417766400 <;> norm_num)
      (roundDouble_of_eq_zero _ (by norm_num))
      (by apply roundDouble_of_pos _ _ 0 7036874417766400 <;> norm_num)
      (by apply roundDouble_of_neg _ _ 0 (-5629499534213120) <;> norm_num)
      (by apply roundDouble_of_pos _ _ (-2) 5629499534213120 <;> norm_num)
      (by apply roundDouble_of_pos _ _ (-2) 8796093022208000 <;> norm_num)
      (roundDouble_of_eq_zero _ (by norm_num))
  rw [h]
  norm_num

/-- C10 fails for the period-2 bulb: `c = -1` lies in the bulb, the cardioid
test is false there (over exact arithmetic and in doubles, where every
operation is exact at this point), the iteration count is not set by the
shortcut and the escape loop runs all three rounds of the budget
`MaxIterations = 3`. -/
theorem bulb_not_shortcut :
    period2Bulb (-1) 0 ∧ (sampleStart (-1) 0 3).numIterations = 0 ∧
      (sampleEscape (-1) 0 3).iterations = 3 ∧
      cardioidCheckDouble (-1) 0 = some false ∧
      (sampleStartDouble (-1) 0 3).numIterations = 0 ∧
      (escapeLoop (-1) 0 3 3 (sampleStartDouble (-1) 0 3)).iterations = 3 := by
  have hd := cardioidCheckDouble_bulb
  have hs : sampleStartDouble (-1) 0 3 = ⟨-1, 0, 0, 0, 0⟩ := by
    simp [sampleStartDouble, hd]
  refine ⟨by norm_num [period2Bulb], ?_, ?_, hd, ?_, ?_⟩
  · norm_num [sampleStart, cardioidCheck]
  · norm_num [sampleEscape, sampleStart, cardioidCheck, escapeLoop, periodicCheck, Limit,
      epsilon]
  · rw [hs]
  · rw [hs]
    norm_num [escapeLoop, periodicCheck, Limit, epsilon]

theorem cardioidCheckDouble_cusp :
    cardioidCheckDouble (274877906943 / 1099511627776) 0 = some false := by
  have h := cardioidCheckDouble_eval (274877906943 / 1099511627776) 0
      (137438953471 / 2199023255552) (274877906943 / 2199023255552) (-(1 / 16)) 0 0 0 (-(1 / 1099511627776)) (-(1 / 1099511627776)) 0 0
      (by apply roundDouble_of_pos _ _ (-5) 9007199254675456 <;> norm_num)
      (by apply roundDouble_of_pos _ _ (-4) 9007199254708224 <;> norm_num)
      (by apply roundDouble_of_neg _ _ (-4) (-4503599627370496) <;> norm_num)
      (roundDouble_of_eq_zero _ (by norm_num))
      (roundDouble_of_eq_zero _ (by norm_num))
      (roundDouble_of_eq_zero _ (by norm_num))
      (by apply roundDouble_of_neg _ _ (-40) (-4503599627370496) <;> norm_num)
      (by apply roundDouble_of_neg _ _ (-40) (-4503599627370496) <;> norm_num)
      (roundDouble_of_eq_zero _ (by norm_num))
      (roundDouble_of_eq_zero _ (by norm_num))
  rw [h]
  norm_num

/-- Rounding at the cusp of the cardioid: the double `x0 = 1/4 - 2^-40` with
`y0 = 0` is a point of the main cardioid and the exact test is true, but in
doubles `x0 * x0 - x0 / 2.` is `-1/16`, `q` cancels to `0`, the test
`0 < 0` is false, the iteration count is not set and the escape loop runs all
three rounds of the budget `MaxIterations = 3`. -/
theorem cusp_not_shortcut :
    mainCardioid (274877906943 / 1099511627776) 0 ∧
      cardioidCheck (274877906943 / 1099511627776) 0 = true ∧
      cardioidCheckDouble (274877906943 / 1099511627776) 0 = some false ∧
      (sampleStartDouble (274877906943 / 1099511627776) 0 3).numIterations = 0 ∧
      (escapeLoop (274877906943 / 1099511627776) 0 3 3
        (sampleStartDouble (274877906943 / 1099511627776) 0 3)).iterations = 3 := by
  have hd := cardioidCheckDouble_cusp
  have hm : mainCardioid (274877906943 / 1099511627776) 0 := by norm_num [mainCardioid]
  have hs : sampleStartDouble (274877906943 / 1099511627776) 0 3 =
      ⟨(274877906943 / 1099511627776), 0, 0, 0, 0⟩ := by
    simp [sampleStartDouble, hd]
  refine ⟨hm, (cardioidCheck_iff _ _).2 hm, hd, ?_, ?_⟩
  · rw [hs]
  · rw [hs]
    norm_num [escapeLoop, periodicCheck, Limit, epsilon, abs_lt]

/-! ## The loops of `calculateInterlacedShift` -/

theorem forRange_fuel (hi gap : Int) (hg : 0 < gap) (k : Nat) :
    ∀ (fuel : Nat) (v : Int), (hi - v).toNat ≤ fuel →
      forRange (fuel + k) v hi gap = forRange fuel v hi gap := by
  intro fuel
  induction fuel with
  | zero =>
    intro v h
    have hv : ¬ v < hi := by omega
    cases k with
    | zero => rfl
    | succ k => simp [forRange, hv]
  | succ fuel ih =>
    intro v h
    rw [show fuel + 1 + k = (fuel + k) + 1 by omega]
    simp only [forRange]
    split_ifs with hv
    · rw [ih (v + gap) (by omega)]
    · rfl

theorem forRange_ge (hi gap : Int) (hg : 0 < gap) :
    ∀ (fuel : Nat) (v x : Int), x ∈ forRange fuel v hi gap → v ≤ x := by
  intro fuel
  induction fuel with
  | zero => intro v x h; simp [forRange] at h
  | succ fuel ih =>
    intro v x h
    simp only [forRange] at h
    split_ifs at h with hv
    · rcases List.mem_cons.1 h with h | h
      · omega
      · have := ih _ _ h
        omega
    · simp at h

theorem forRange_form (hi gap : Int) :
    ∀ (fuel : Nat) (v x : Int), x ∈ forRange fuel v hi gap →
      x < hi ∧ ∃ k : Nat, x = v + gap * k := by
  intro fuel
  induction fuel with
  | zero => intro v x h; simp [forRange] at h
  | succ fuel ih =>
    intro v x h
    simp only [forRange] at h
    split_ifs at h with hv
    · rcases List.mem_cons.1 h with h | h
      · exact ⟨by omega, 0, by simp [h]⟩
      · obtain ⟨h1, k, hk⟩ := ih _ _ h
        exact ⟨h1, k + 1, by rw [hk]; push_cast; ring⟩
    · simp at h

theorem forRange_mem (hi gap : Int) (hg : 0 < gap) :
    ∀ (fuel : Nat) (v : Int) (k : Nat), k < fuel → v + gap * k < hi →
      v + gap * k ∈ forRange fuel v hi gap := by
  intro fuel
  induction fuel with
  | zero => intro v k h; omega
  | succ fuel ih =>
    intro v k hk hlt
    have hv : v < hi := by
      have : 0 ≤ gap * (k : Int) := mul_nonneg hg.le (Int.ofNat_nonneg k)
      omega
    simp only [forRange, hv, if_true]
    cases k with
    | zero => simp
    | succ k =>
      refine List.mem_cons_of_mem _ ?_
      have h := ih (v + gap) k (by omega) (by push_cast at hlt; linarith)
      have e : v + gap * ((k + 1 : Nat) : Int) = v + gap + gap * (k : Int) := by
        push_cast; ring
      rw [e]
      exact h

theorem sampleLoop_image (env : TaskEnv) (cx cy : ℚ) (M : Nat) (x_d y_d : Int) :
    ∀ (n : Nat) (s : TaskState) (cols : List (Option QColor)),
      (sampleLoop env cx cy M x_d y_d n s cols).1.image = s.image := by
  intro n
  induction n with
  | zero => intro s cols; rfl
  | succ n ih =>
    intro s cols
    simp only [sampleLoop]
    split_ifs
    · rfl
    · rfl
    · rw [ih]

theorem sampleLoop_noCancel (env : TaskEnv) (hn : NoCancel env) (cx cy : ℚ) (M : Nat)
    (x_d y_d : Int) :
    ∀ (n : Nat) (s : TaskState) (cols : List (Option QColor)),
      (sampleLoop env cx cy M x_d y_d n s cols).2.2 = false := by
  intro n
  induction n with
  | zero => intro s cols; rfl
  | succ n ih =>
    intro s cols
    simp only [sampleLoop, (hn _).1, (hn _).2]
    exact ih _ _

theorem colLoop_image (env : TaskEnv) (hw hh sx : Int) (cx cy : ℚ) (scale : Int) (M : Nat)
    (y_d : Int) :
    ∀ (xs : List Int) (s : TaskState) (w : Int × Int × Option QColor),
      w ∈ (colLoop env hw hh sx cx cy scale M y_d xs s).1.image →
      w ∈ s.image ∨ ∃ x ∈ xs, x + sx < hw ∧ ∃ s1 : TaskState,
        w = (x + sx + hw, y_d + hh,
          pixelColor (sampleLoop env cx cy M (x + sx) y_d scale.toNat s1 []).2.1 scale) := by
  intro xs
  induction xs with
  | nil => intro s w h; exact Or.inl h
  | cons x xs ih =>
    intro s w h
    simp only [colLoop] at h
    split_ifs at h
    all_goals first
      | exact Or.inl h
      | (rw [sampleLoop_image] at h; exact Or.inl h)
      | (rcases ih _ _ h with h | ⟨x1, hx1, hlt, s1, e⟩
         · simp only [sampleLoop_image, List.mem_append, List.mem_singleton] at h
           rcases h with h | h
           · exact Or.inl h
           · exact Or.inr ⟨x, List.mem_cons_self _ _, by omega, _, h⟩
         · exact Or.inr ⟨x1, List.mem_cons_of_mem _ hx1, hlt, s1, e⟩)

theorem colLoop_mono (env : TaskEnv) (hw hh sx : Int) (cx cy : ℚ) (scale : Int) (M : Nat)
    (y_d : Int) :
    ∀ (xs : List Int) (s : TaskState) (w : Int × Int × Option QColor),
      w ∈ s.image → w ∈ (colLoop env hw hh sx cx cy scale M y_d xs s).1.image := by
  intro xs
  induction xs with
  | nil => intro s w h; exact h
  | cons x xs ih =>
    intro s w h
    simp only [colLoop]
    split_ifs
    all_goals first
      | exact h
      | (rw [sampleLoop_image]; exact h)
      | (apply ih
         simp only [sampleLoop_image, List.mem_append]
         exact Or.inl h)

theorem rowLoop_image (env : TaskEnv) (hw hh gap sx sy : Int) (cx cy : ℚ) (scale : Int)
    (M : Nat) :
    ∀ (ys : List Int) (s : TaskState) (w : Int × Int × Option QColor),
      w ∈ (rowLoop env hw hh gap sx sy cx cy scale M ys s).1.image →
      w ∈ s.image ∨ ∃ y ∈ ys, y + sy < hh ∧
        ∃ x ∈ forRange (2 * hw).toNat (-hw) hw gap, x + sx < hw ∧ ∃ s1 : TaskState,
        w = (x + sx + hw, y + sy + hh,
          pixelColor (sampleLoop env cx cy M (x + sx) (y + sy) scale.toNat s1 []).2.1
            scale) := by
  intro ys
  induction ys with
  | nil => intro s w h; exact Or.inl h
  | cons y ys ih =>
    intro s w h
    simp only [rowLoop] at h
    have hc : ∀ w, w ∈ (colLoop env hw hh sx cx cy scale M (y + sy)
        (forRange (2 * hw).toNat (-hw) hw gap) { s with checks := s.checks + 1 }).1.image →
        y + sy < hh →
        w ∈ s.image ∨ ∃ y1 ∈ y :: ys, y1 + sy < hh ∧
          ∃ x ∈ forRange (2 * hw).toNat (-hw) hw gap, x + sx < hw ∧
          ∃ s1 : TaskState, w = (x + sx + hw, y1 + sy + hh,
            pixelColor (sampleLoop env cx cy M (x + sx) (y1 + sy) scale.toNat s1 []).2.1
              scale) := by
      intro w hw1 hlt
      rcases colLoop_image env hw hh sx cx cy scale M (y + sy) _ _ w hw1 with
        h | ⟨x, hx, hxlt, s1, e⟩
      · exact Or.inl h
      · exact Or.inr ⟨y, List.mem_cons_self _ _, hlt, x, hx, hxlt, s1, e⟩
    split_ifs at h
    all_goals first
      | exact Or.inl h
      | exact hc w h (by omega)
      | (rcases ih _ _ h with h | ⟨y1, hy1, hlt, x, hx, hxlt, s1, e⟩
         · exact hc w h (by omega)
         · exact Or.inr ⟨y1, List.mem_cons_of_mem _ hy1, hlt, x, hx, hxlt, s1, e⟩)

theorem rowLoop_mono (env : TaskEnv) (hw hh gap sx sy : Int) (cx cy : ℚ) (scale : Int)
    (M : Nat) :
    ∀ (ys : List Int) (s : TaskState) (w : Int × Int × Option QColor),
      w ∈ s.image → w ∈ (rowLoop env hw hh gap sx sy cx cy scale M ys s).1.image := by
  intro ys
  induction ys with
  | nil => intro s w h; exact h
  | cons y ys ih =>
    intro s w h
    simp only [rowLoop]
    have hc := colLoop_mono env hw hh sx cx cy scale M (y + sy)
      (forRange (2 * hw).toNat (-hw) hw gap) { s with checks := s.checks + 1 } w h
    split_ifs
    all_goals first
      | exact h
      | exact hc
      | exact ih _ _ hc

theorem colLoop_noCancel (env : TaskEnv) (hn : NoCancel env) (hw hh sx : Int) (cx cy : ℚ)
    (scale : Int) (M : Nat) (y_d hi gap : Int) (hg : 0 < gap) :
    ∀ (fuel : Nat) (v : Int) (s : TaskState),
      (colLoop env hw hh sx cx cy scale M y_d (forRange fuel v hi gap) s).2 = false ∧
      ∀ x ∈ forRange fuel v hi gap, x + sx < hw →
        ∃ c, (x + sx + hw, y_d + hh, c) ∈
          (colLoop env hw hh sx cx cy scale M y_d (forRange fuel v hi gap) s).1.image := by
  intro fuel
  induction fuel with
  | zero => intro v s; simp [forRange, colLoop]
  | succ fuel ih =>
    intro v s
    by_cases hv : v < hi
    · simp only [forRange, hv, if_true]
      by_cases h1 : v + sx < hw
      · simp only [colLoop, h1, not_true_eq_false, if_false, (hn _).1, (hn _).2,
          sampleLoop_noCancel env hn, Bool.false_eq_true]
        obtain ⟨ih1, ih2⟩ := ih (v + gap)
          { (sampleLoop env cx cy M (v + sx) y_d scale.toNat
                { s with checks := s.checks + 1 } []).1 with
            image := (sampleLoop env cx cy M (v + sx) y_d scale.toNat
                { s with checks := s.checks + 1 } []).1.image ++
              [(v + sx + hw, y_d + hh,
                pixelColor (sampleLoop env cx cy M (v + sx) y_d scale.toNat
                  { s with checks := s.checks + 1 } []).2.1 scale)] }
        refine ⟨ih1, ?_⟩
        intro x hx hlt
        rcases List.mem_cons.1 hx with hx | hx
        · subst hx
          refine ⟨pixelColor (sampleLoop env cx cy M (x + sx) y_d scale.toNat
            { s with checks := s.checks + 1 } []).2.1 scale, ?_⟩
          apply colLoop_mono
          exact List.mem_append_right _ (List.mem_singleton.2 rfl)
        · exact ih2 x hx hlt
      · simp only [colLoop, h1, not_false_eq_true, if_true, true_and]
        intro x hx hlt
        exfalso
        have hge : v ≤ x := by
          rcases List.mem_cons.1 hx with hx | hx
          · omega
          · have := forRange_ge hi gap hg fuel (v + gap) x hx
            omega
        omega
    · simp [forRange, hv, colLoop]

theorem rowLoop_noCancel (env : TaskEnv) (hn : NoCancel env) (hw hh gap sx sy : Int)
    (cx cy : ℚ) (scale : Int) (M : Nat) (hi : Int) (hg : 0 < gap) :
    ∀ (fuel : Nat) (v : Int) (s : TaskState),
      (rowLoop env hw hh gap sx sy cx cy scale M (forRange fuel v hi gap) s).2 = false ∧
      ∀ y ∈ forRange fuel v hi gap, y + sy < hh →
        ∀ x ∈ forRange (2 * hw).toNat (-hw) hw gap, x + sx < hw →
          ∃ c, (x + sx + hw, y + sy + hh, c) ∈
            (rowLoop env hw hh gap sx sy cx cy scale M (forRange fuel v hi gap) s).1.image := by
  intro fuel
  induction fuel with
  | zero => intro v s; simp [forRange, rowLoop]
  | succ fuel ih =>
    intro v s
    by_cases hv : v < hi
    · simp only [forRange, hv, if_true]
      by_cases h1 : v + sy < hh
      · obtain ⟨hc1, hc2⟩ := colLoop_noCancel env hn hw hh sx cx cy scale M (v + sy) hw gap hg
          (2 * hw).toNat (-hw) { s with checks := s.checks + 1 }
        simp only [rowLoop, h1, not_true_eq_false, if_false, (hn _).1, (hn _).2, hc1,
          Bool.false_eq_true]
        obtain ⟨ih1, ih2⟩ := ih (v + gap)
          (colLoop env hw hh sx cx cy scale M (v + sy)
            (forRange (2 * hw).toNat (-hw) hw gap) { s with checks := s.checks + 1 }).1
        refine ⟨ih1, ?_⟩
        intro y hy hlt x hx hxlt
        rcases List.mem_cons.1 hy with hy | hy
        · subst hy
          obtain ⟨c, hc⟩ := hc2 x hx hxlt
          exact ⟨c, rowLoop_mono env hw hh gap sx sy cx cy scale M _ _ _ hc⟩
        · exact ih2 y hy hlt x hx hxlt
      · simp only [rowLoop, h1, not_false_eq_true, if_true, true_and]
        intro y hy hlt
        exfalso
        have hge : v ≤ y := by
          rcases List.mem_cons.1 hy with hy | hy
          · omega
          · have := forRange_ge hi gap hg fuel (v + gap) y hy
            omega
        omega
    · simp [forRange, hv, rowLoop]

theorem mem_written (s : TaskState) (c : Int × Int) :
    c ∈ written s ↔ ∃ col, (c.1, c.2, col) ∈ s.image := by
  unfold written
  constructor
  · intro h
    obtain ⟨w, hw, e⟩ := List.mem_map.1 h
    refine ⟨w.2.2, ?_⟩
    rw [← e]
    exact hw
  · rintro ⟨col, h⟩
    exact List.mem_map.2 ⟨_, h, rfl⟩

theorem image_entry (env : TaskEnv) (hw hh gap sx sy : Int) (cx cy : ℚ) (scale : Int)
    (M : Nat) (w : Int × Int × Option QColor)
    (h : w ∈ (calculateInterlacedShift env hw hh gap sx sy cx cy scale M).image) :
    ∃ y ∈ forRange (2 * hh).toNat (-hh) hh gap, y + sy < hh ∧
      ∃ x ∈ forRange (2 * hw).toNat (-hw) hw gap, x + sx < hw ∧
      ∃ s1 : TaskState, w = (x + sx + hw, y + sy + hh,
        pixelColor (sampleLoop env cx cy M (x + sx) (y + sy) scale.toNat s1 []).2.1 scale) := by
  unfold calculateInterlacedShift at h
  rcases rowLoop_image env hw hh gap sx sy cx cy scale M _ _ w h with h | h
  · simp at h
  · exact h

theorem written_form (env : TaskEnv) (hw hh gap sx sy : Int) (cx cy : ℚ) (scale : Int)
    (M : Nat) (c : Int × Int)
    (h : c ∈ written (calculateInterlacedShift env hw hh gap sx sy cx cy scale M)) :
    ∃ i j : Nat, c = (gap * i + sx, gap * j + sy) ∧ gap * i + sx < 2 * hw ∧
      gap * j + sy < 2 * hh := by
  obtain ⟨col, hc⟩ := (mem_written _ c).1 h
  obtain ⟨y, hy, hylt, x, hx, hxlt, s1, e⟩ :=
    image_entry env hw hh gap sx sy cx cy scale M _ hc
  obtain ⟨hx1, i, hi⟩ := forRange_form hw gap _ _ _ hx
  obtain ⟨hy1, j, hj⟩ := forRange_form hh gap _ _ _ hy
  refine ⟨i, j, ?_, by omega, by omega⟩
  have e1 : c.1 = x + sx + hw := congrArg (fun w => w.1) e
  have e2 : c.2 = y + sy + hh := congrArg (fun w => w.2.1) e
  apply Prod.ext
  · simp only; omega
  · simp only; omega

theorem written_of_noCancel (env : TaskEnv) (hn : NoCancel env) (hw hh gap sx sy : Int)
    (cx cy : ℚ) (scale : Int) (M : Nat) (hg : 0 < gap) (hsx : 0 ≤ sx) (hsy : 0 ≤ sy)
    (i j : Nat) (hi : gap * i + sx < 2 * hw) (hj : gap * j + sy < 2 * hh) :
    (gap * i + sx, gap * j + sy) ∈
      written (calculateInterlacedShift env hw hh gap sx sy cx cy scale M) := by
  have hi0 : 0 ≤ gap * (i : Int) := mul_nonneg hg.le (Int.ofNat_nonneg i)
  have hj0 : 0 ≤ gap * (j : Int) := mul_nonneg hg.le (Int.ofNat_nonneg j)
  have hi1 : (i : Int) ≤ gap * i := le_mul_of_one_le_left (Int.ofNat_nonneg i) hg
  have hj1 : (j : Int) ≤ gap * j := le_mul_of_one_le_left (Int.ofNat_nonneg j) hg
  have hx : -hw + gap * i ∈ forRange (2 * hw).toNat (-hw) hw gap :=
    forRange_mem hw gap hg _ _ i (by omega) (by omega)
  have hy : -hh + gap * j ∈ forRange (2 * hh).toNat (-hh) hh gap :=
    forRange_mem hh gap hg _ _ j (by omega) (by omega)
  obtain ⟨_, h2⟩ := rowLoop_noCancel env hn hw hh gap sx sy cx cy scale M hh hg
    (2 * hh).toNat (-hh) ⟨0, 0, []⟩
  obtain ⟨c, hc⟩ := h2 _ hy (by omega) _ hx (by omega)
  rw [mem_written]
  refine ⟨c, ?_⟩
  unfold calculateInterlacedShift
  have e1 : gap * (i : Int) + sx = -hw + gap * i + sx + hw := by ring
  have e2 : gap * (j : Int) + sy = -hh + gap * j + sy + hh := by ring
  simp only [e1, e2] at hc ⊢
  exact hc

/-! ## The partition of the image by the shifts -/

theorem shifts_ten :
    shifts 10 = (List.range 100).map (fun k => (((k % 10 : Nat) : Int), ((k / 10 : Nat) : Int))) := by
  decide

theorem mem_shifts_ten (sh : Int × Int) :
    sh ∈ shifts 10 ↔ 0 ≤ sh.1 ∧ sh.1 < 10 ∧ 0 ≤ sh.2 ∧ sh.2 < 10 := by
  rw [shifts_ten, List.mem_map]
  constructor
  · rintro ⟨k, hk, rfl⟩
    have hk := List.mem_range.1 hk
    simp only
    omega
  · rintro ⟨h1, h2, h3, h4⟩
    refine ⟨sh.1.toNat + 10 * sh.2.toNat, List.mem_range.2 (by omega), ?_⟩
    apply Prod.ext
    · simp only; omega
    · simp only; omega

theorem blockingMapWritten_iff (envs : Int × Int → TaskEnv) (hn : ∀ sh, NoCancel (envs sh))
    (width height : Int) (cx cy : ℚ) (scale : Int) (M : Nat) (c : Int × Int) :
    c ∈ blockingMapWritten envs width height cx cy scale M ↔
      0 ≤ c.1 ∧ c.1 < 2 * Int.tdiv width 2 ∧ 0 ≤ c.2 ∧ c.2 < 2 * Int.tdiv height 2 := by
  unfold blockingMapWritten
  rw [List.mem_flatMap]
  constructor
  · rintro ⟨sh, hsh, h⟩
    obtain ⟨h1, h2, h3, h4⟩ := (mem_shifts_ten sh).1 hsh
    obtain ⟨i, j, e, hi, hj⟩ := written_form _ _ _ _ _ _ _ _ _ _ c h
    rw [e]
    simp only
    omega
  · rintro ⟨h1, h2, h3, h4⟩
    refine ⟨(c.1 % 10, c.2 % 10), (mem_shifts_ten _).2 (by simp only; omega), ?_⟩
    have h := written_of_noCancel (envs (c.1 % 10, c.2 % 10)) (hn _) (Int.tdiv width 2)
      (Int.tdiv height 2) 10 (c.1 % 10) (c.2 % 10) cx cy scale M (by norm_num) (by omega)
      (by omega) (c.1 / 10).toNat (c.2 / 10).toNat (by omega) (by omega)
    have e : c = (10 * (((c.1 / 10).toNat : Nat) : Int) + c.1 % 10,
        10 * (((c.2 / 10).toNat : Nat) : Int) + c.2 % 10) := by
      apply Prod.ext
      · simp only; omega
      · simp only; omega
    rw [← e] at h
    exact h

theorem quietEnv_noCancel (sf : ℚ) : NoCancel (quietEnv sf) := fun _ => ⟨rfl, rfl⟩

/-- C1 at the image size 3 x 3, with no cancellation: the tasks of all 100
shifts together write the four buffer coordinates of `{0, 1} x {0, 1}` only, so
column 2 and row 2 of the image are never written. -/
theorem odd_size_not_covered :
    (0, 0) ∈ blockingMapWritten (fun _ => quietEnv (1 / 200)) 3 3 0 0 1 10 ∧
    (1, 1) ∈ blockingMapWritten (fun _ => quietEnv (1 / 200)) 3 3 0 0 1 10 ∧
    (2, 0) ∉ blockingMapWritten (fun _ => quietEnv (1 / 200)) 3 3 0 0 1 10 ∧
    (0, 2) ∉ blockingMapWritten (fun _ => quietEnv (1 / 200)) 3 3 0 0 1 10 ∧
    (2, 2) ∉ blockingMapWritten (fun _ => quietEnv (1 / 200)) 3 3 0 0 1 10 := by
  have h := blockingMapWritten_iff (fun _ => quietEnv (1 / 200))
    (fun _ => quietEnv_noCancel _) 3 3 0 0 1 10
  have e : Int.tdiv 3 2 = 1 := by decide
  simp only [e] at h
  refine ⟨(h _).2 (by decide), (h _).2 (by decide), ?_, ?_, ?_⟩
  · intro hc
    have := (h _).1 hc
    simp at this
  · intro hc
    have := (h _).1 hc
    simp at this
  · intro hc
    have := (h _).1 hc
    simp at this

/-- C2: for all half-extents and any two distinct shifts with components in
`0..9`, the buffer coordinates written by `calculateInterlacedShift` for the
two shifts are disjoint, whatever the two tasks observe of the flags and of the
random generator. -/
theorem shifts_write_disjoint (env1 env2 : TaskEnv) (halfWidth halfHeight : Int)
    (sx1 sy1 sx2 sy2 : Int) (center_x center_y : ℚ) (supersample_scale : Int)
    (MaxIterations : Nat)
    (h1 : 0 ≤ sx1 ∧ sx1 < 10 ∧ 0 ≤ sy1 ∧ sy1 < 10)
    (h2 : 0 ≤ sx2 ∧ sx2 < 10 ∧ 0 ≤ sy2 ∧ sy2 < 10)
    (hne : (sx1, sy1) ≠ (sx2, sy2)) :
    List.Disjoint
      (written (calculateInterlacedShift env1 halfWidth halfHeight 10 sx1 sy1
        center_x center_y supersample_scale MaxIterations))
      (written (calculateInterlacedShift env2 halfWidth halfHeight 10 sx2 sy2
        center_x center_y supersample_scale MaxIterations)) := by
  intro c hc1 hc2
  obtain ⟨i1, j1, e1, _, _⟩ := written_form _ _ _ _ _ _ _ _ _ _ c hc1
  obtain ⟨i2, j2, e2, _, _⟩ := written_form _ _ _ _ _ _ _ _ _ _ c hc2
  apply hne
  have ex : 10 * (i1 : Int) + sx1 = 10 * (i2 : Int) + sx2 := by
    have := congrArg Prod.fst (e1.symm.trans e2)
    simpa using this
  have ey : 10 * (j1 : Int) + sy1 = 10 * (j2 : Int) + sy2 := by
    have := congrArg Prod.snd (e1.symm.trans e2)
    simpa using this
  apply Prod.ext
  · simp only; omega
  · simp only; omega

/-- Witness of C2: the shifts `(0, 0)` and `(1, 0)` on a 10 x 10 image. -/
theorem shifts_write_disjoint_witness :
    List.Disjoint
      (written (calculateInterlacedShift (quietEnv (1 / 200)) 5 5 10 0 0 0 0 1 10))
      (written (calculateInterlacedShift (quietEnv (1 / 200)) 5 5 10 1 0 0 0 1 10)) :=
  shifts_write_disjoint (quietEnv (1 / 200)) (quietEnv (1 / 200)) 5 5 0 0 1 0 0 0 1 10
    (by decide) (by decide) (by decide)

/-! ## The sample coordinates -/

/-- C7 fails on the code: two executions of `calculateInterlacedShift` with the
same arguments (half-extents 1, gap 10, shift (0, 0), centre (0, 0), one
sample, budget 2), the same flag observations and the same random draws, which
differ only in the value of the member `scaleFactor` read at lines 245 and 249
(`1/2` against `1000`), compute different sample coordinates for the pixel
`x_d = y_d = -1` and write different colours. -/
theorem stored_scaleFactor_changes_pixels :
    sampleCoord 0 (-1) 1 (1 / 2) = some (-1 / 4) ∧
    sampleCoord 0 (-1) 1 1000 = some (-500) ∧
    (calculateInterlacedShift (quietEnv (1 / 2)) 1 1 10 0 0 0 0 1 2).image =
      [(0, 0, some black)] ∧
    (calculateInterlacedShift (quietEnv 1000) 1 1 10 0 0 0 0 1 2).image =
      [(0, 0, some ⟨255, 255, 255⟩)] := by
  have e : (2 * (1 : Int)).toNat = 2 := by decide
  have e1 : (1 : Int).toNat = 1 := by decide
  refine ⟨by norm_num [sampleCoord, lerp], by norm_num [sampleCoord, lerp], ?_, ?_⟩
  · simp only [calculateInterlacedShift, e, forRange, rowLoop, colLoop, e1, sampleLoop,
      quietEnv]
    norm_num [sampleAt, sampleCoord, lerp, sampleColor, sampleEscape, sampleStart,
      cardioidCheck, escapeLoop, smoothLoop, periodicCheck, Limit, epsilon]
    decide
  · simp only [calculateInterlacedShift, e, forRange, rowLoop, colLoop, e1, sampleLoop,
      quietEnv]
    norm_num [sampleAt, sampleCoord, lerp, sampleColor, sampleEscape, sampleStart,
      cardioidCheck, escapeLoop, smoothLoop, periodicCheck, Limit, epsilon]
    decide

/-! ## Scenario A -/

theorem scenarioA_coord (center : ℚ) (r : Nat) (hr : 1 ≤ r) :
    ∃ t : ℚ, 0 < t ∧ t ≤ 1 ∧
      sampleCoord center 0 r (1 / 200) = some (center + (t - 1 / 2) / 200) := by
  have hr0 : (0 : ℚ) < r := by exact_mod_cast hr
  have hr1 : (1 : ℚ) ≤ r := by exact_mod_cast hr
  refine ⟨1 / (r : ℚ), one_div_pos.2 hr0, (div_le_one hr0).2 hr1, ?_⟩
  have hne : r ≠ 0 := by omega
  simp only [sampleCoord, hne, if_false, lerp]
  congr 1
  push_cast
  ring

theorem cardioid_near_centre (a y : ℚ) (ha1 : -3 / 4 - 1 / 400 ≤ a)
    (ha2 : a ≤ -3 / 4 + 1 / 400) (hy1 : -1 / 400 ≤ y) (hy2 : y ≤ 1 / 400) :
    (a ^ 2 + y ^ 2) * (a ^ 2 + y ^ 2 + a) < y ^ 2 / 4 := by
  have han : a < 0 := by linarith
  have hq : 0 < a ^ 2 + y ^ 2 := by
    nlinarith [mul_pos (neg_pos.2 han) (neg_pos.2 han), sq_nonneg y]
  have hneg : a ^ 2 + y ^ 2 + a < 0 := by
    nlinarith [mul_nonneg (sub_nonneg.2 ha1) (sub_nonneg.2 ha2),
      mul_nonneg (sub_nonneg.2 hy1) (sub_nonneg.2 hy2)]
  have hprod : (a ^ 2 + y ^ 2) * (a ^ 2 + y ^ 2 + a) < 0 := mul_neg_of_pos_of_neg hq hneg
  have hy0 : 0 ≤ y ^ 2 / 4 := by positivity
  linarith

theorem scenarioA_cardioid (t u : ℚ) (ht0 : 0 < t) (ht1 : t ≤ 1) (hu0 : 0 < u) (hu1 : u ≤ 1) :
    mainCardioid (-1 / 2 + (t - 1 / 2) / 200) (0 + (u - 1 / 2) / 200) := by
  unfold mainCardioid
  exact cardioid_near_centre _ _ (by linarith) (by linarith) (by linarith) (by linarith)

theorem scenarioA_sample (smoothColor : Nat → ℚ → ℚ → QColor) (rx ry : Nat) (sx sy : ℚ)
    (hrx : 1 ≤ rx) (hry : 1 ≤ ry) (hsx : sx = 1 / 200) (hsy : sy = 1 / 200) :
    ∃ x0 y0 : ℚ, sampleCoord (-1 / 2) 0 rx sx = some x0 ∧ sampleCoord 0 0 ry sy = some y0 ∧
      cardioidCheck x0 y0 = true ∧
      (sampleStart x0 y0 100).numIterations = 100 ∧
      (sampleEscape x0 y0 100).numIterations = 100 ∧
      (sampleEscape x0 y0 100).iterations = 0 ∧
      sampleColor smoothColor x0 y0 100 = black ∧
      sampleAt smoothColor (-1 / 2) 0 100 0 0 rx ry sx sy = some black := by
  obtain ⟨t, ht0, ht1, hx⟩ := scenarioA_coord (-1 / 2) rx hrx
  obtain ⟨u, hu0, hu1, hy⟩ := scenarioA_coord 0 ry hry
  subst hsx hsy
  have hc : cardioidCheck (-1 / 2 + (t - 1 / 2) / 200) (0 + (u - 1 / 2) / 200) = true :=
    (cardioidCheck_iff _ _).2 (scenarioA_cardioid t u ht0 ht1 hu0 hu1)
  have hs : (sampleStart (-1 / 2 + (t - 1 / 2) / 200) (0 + (u - 1 / 2) / 200)
      100).numIterations = 100 := by
    simp only [sampleStart, hc, if_true]
  have he : sampleEscape (-1 / 2 + (t - 1 / 2) / 200) (0 + (u - 1 / 2) / 200) 100 =
      sampleStart (-1 / 2 + (t - 1 / 2) / 200) (0 + (u - 1 / 2) / 200) 100 :=
    escapeLoop_done _ _ 100 100 _ hs
  have hcol : sampleColor smoothColor (-1 / 2 + (t - 1 / 2) / 200) (0 + (u - 1 / 2) / 200)
      100 = black := by
    simp only [sampleColor, he, hs, lt_self_iff_false, if_false]
  refine ⟨_, _, hx, hy, hc, hs, ?_, ?_, hcol, ?_⟩
  · rw [he]; exact hs
  · rw [he]; rfl
  · simp only [sampleAt, hx, hy, hcol]

theorem scenarioA_pixel (env : TaskEnv) (hr : ∀ k, 1 ≤ env.qrand k)
    (hs : ∀ k, env.scaleFactorAt k = 1 / 200) (s : TaskState) :
    pixelColor (sampleLoop env (-1 / 2) 0 100 0 0 1 s []).2.1 1 = some black := by
  have h0 : pixelColor [] 1 = some black := by decide
  simp only [sampleLoop]
  split_ifs
  · exact h0
  · exact h0
  · obtain ⟨_, _, _, _, _, _, _, _, _, h⟩ := scenarioA_sample env.smoothColor
      (env.qrand s.draws) (env.qrand (s.draws + 1)) (env.scaleFactorAt s.draws)
      (env.scaleFactorAt (s.draws + 1)) (hr _) (hr _) (hs _) (hs _)
    simp only [h, List.nil_append]
    decide

/-- C9 (Scenario A): centre `(-1/2, 0)`, member `scaleFactor = 1/200`, image
100 x 100 (half-extents 50), one sample for each pixel, `MaxIterations = 100`.
For all draws `rx, ry ≥ 1` the sample of the centre pixel `x_d = y_d = 0`
passes the cardioid check, its iteration count is 100, the escape loop makes
no round and the sample colour is black; every colour written at buffer
coordinate `(50, 50)` by the task of shift `(0, 0)` is black, and without
cancellation that pixel is written. -/
theorem scenarioA_centre_black (env : TaskEnv) (hr : ∀ k, 1 ≤ env.qrand k)
    (hs : ∀ k, env.scaleFactorAt k = 1 / 200) :
    (∀ rx ry : Nat, 1 ≤ rx → 1 ≤ ry →
      ∃ x0 y0 : ℚ, sampleCoord (-1 / 2) 0 rx (1 / 200) = some x0 ∧
        sampleCoord 0 0 ry (1 / 200) = some y0 ∧
        cardioidCheck x0 y0 = true ∧
        (sampleStart x0 y0 100).numIterations = 100 ∧
        (sampleEscape x0 y0 100).numIterations = 100 ∧
        (sampleEscape x0 y0 100).iterations = 0 ∧
        sampleColor env.smoothColor x0 y0 100 = black) ∧
    (∀ c, (50, 50, c) ∈ (calculateInterlacedShift env (Int.tdiv 100 2) (Int.tdiv 100 2) 10 0 0
        (-1 / 2) 0 1 100).image → c = some black) ∧
    (NoCancel env →
      ∃ c, (50, 50, c) ∈ (calculateInterlacedShift env (Int.tdiv 100 2) (Int.tdiv 100 2) 10 0 0
        (-1 / 2) 0 1 100).image) := by
  have e50 : Int.tdiv 100 2 = 50 := by decide
  rw [e50]
  refine ⟨?_, ?_, ?_⟩
  · intro rx ry hrx hry
    obtain ⟨x0, y0, h1, h2, h3, h4, h5, h6, h7, _⟩ :=
      scenarioA_sample env.smoothColor rx ry (1 / 200) (1 / 200) hrx hry rfl rfl
    exact ⟨x0, y0, h1, h2, h3, h4, h5, h6, h7⟩
  · intro c hc
    obtain ⟨y, _, _, x, _, _, s1, e⟩ := image_entry env 50 50 10 0 0 (-1 / 2) 0 1 100 _ hc
    have ex : (50 : Int) = x + 0 + 50 := congrArg (fun w => w.1) e
    have ey : (50 : Int) = y + 0 + 50 := congrArg (fun w => w.2.1) e
    have hx : x = 0 := by omega
    have hy : y = 0 := by omega
    subst hx hy
    have ec := congrArg (fun w => w.2.2) e
    simp only at ec
    rw [ec]
    have e1 : (1 : Int).toNat = 1 := by decide
    rw [e1]
    exact scenarioA_pixel env hr hs s1
  · intro hn
    have h := written_of_noCancel env hn 50 50 10 0 0 (-1 / 2) 0 1 100 (by norm_num)
      (by norm_num) (by norm_num) 5 5 (by norm_num) (by norm_num)
    exact (mem_written _ _).1 h

/-- Witness of C9: all draws equal to `1`, no cancellation. -/
theorem scenarioA_centre_black_witness :
    (∀ c, (50, 50, c) ∈ (calculateInterlacedShift (quietEnv (1 / 200)) (Int.tdiv 100 2)
        (Int.tdiv 100 2) 10 0 0 (-1 / 2) 0 1 100).image → c = some black) ∧
    ∃ c, (50, 50, c) ∈ (calculateInterlacedShift (quietEnv (1 / 200)) (Int.tdiv 100 2)
        (Int.tdiv 100 2) 10 0 0 (-1 / 2) 0 1 100).image :=
  ⟨(scenarioA_centre_black (quietEnv (1 / 200)) (fun _ => le_refl 1) (fun _ => rfl)).2.1,
    (scenarioA_centre_black (quietEnv (1 / 200)) (fun _ => le_refl 1) (fun _ => rfl)).2.2
      (quietEnv_noCancel _)⟩

/-! ## The controller and the worker loop -/

theorem calls_at_lock209 (cs : List Call) :
    ∀ t : Thread, t.loc = Loc.lock209 → t._restart = true →
      (calls t cs).loc = Loc.lock209 ∧ (calls t cs)._restart = true ∧
        (calls t cs).emitted = t.emitted := by
  induction cs with
  | nil => intro t h1 h2; exact ⟨h1, h2, rfl⟩
  | cons c cs ih =>
    intro t h1 h2
    have hstep : (call t c).loc = Loc.lock209 ∧ (call t c)._restart = true ∧
        (call t c).emitted = t.emitted := by
      cases c with
      | render p => simp [call, render, isRunning, h1]
      | restart => simp [call, restart, h1]
      | abort => simp [call, abort, h1, h2]
    obtain ⟨h3, h4, h5⟩ := ih (call t c) hstep.1 hstep.2.1
    have e : calls t (c :: cs) = calls (call t c) cs := rfl
    rw [e]
    exact ⟨h3, h4, h5.trans hstep.2.2⟩

theorem workerStep_emits (u : Thread) (h : (workerStep u).emitted ≠ u.emitted) :
    u.loc = Loc.emit208 ∧ u._restart = false := by
  unfold workerStep at h
  split at h
  all_goals first
    | exact absurd rfl h
    | (split_ifs at h <;> first | exact absurd rfl h | skip)
  all_goals first
    | (refine ⟨by assumption, ?_⟩
       cases hr : u._restart
       · rfl
       · simp_all)

theorem workerStep_lock209 (u : Thread) (h1 : u.loc = Loc.lock209) (h2 : u._restart = true) :
    (workerStep u).loc = Loc.top ∧ (workerStep u)._restart = false ∧
      (workerStep u).emitted = u.emitted := by
  simp [workerStep, h1, h2]

/-- C3, as the code has it: `render()` validates nothing.  For every call, also
one with degenerate parameters, it stores the given parameters; it starts the
worker when the thread is not running, and otherwise sets the restart flag.
It emits nothing and returns no value. -/
theorem render_stores_and_schedules (t : Thread) (p : Params) :
    (render t p).stored = p ∧ (render t p).emitted = t.emitted ∧
    (isRunning t = false → (render t p).loc = Loc.top ∧ (render t p)._restart = t._restart) ∧
    (isRunning t = true → (render t p)._restart = true ∧ isRunning (render t p) = true) := by
  unfold render isRunning
  by_cases h : t.loc = Loc.stopped
  · simp [h]
  · by_cases hw : t.loc = Loc.waiting
    · simp [h, hw]
    · simp [h, hw]

/-- C3 fails on the code: a call of `render()` with parameters that are
degenerate in every respect, made on a fresh object, overwrites the stored
parameters and starts the worker; made while the worker runs, it overwrites
the stored parameters and sets the restart flag. -/
theorem render_accepts_degenerate :
    Degenerate paramsZero ∧
    isRunning (initial paramsA) = false ∧
    (render (initial paramsA) paramsZero).stored = paramsZero ∧
    isRunning (render (initial paramsA) paramsZero) = true ∧
    isRunning atTasks = true ∧ atTasks._restart = false ∧
    (render atTasks paramsZero).stored = paramsZero ∧
    (render atTasks paramsZero)._restart = true := by
  refine ⟨Or.inl (by decide), by decide, rfl, by decide, by decide, by decide, rfl, by decide⟩

/-- C4 fails on the code: the worker is inside the shift tasks of a pass with
both flags clear, and `abort()` is called.  The tasks return, the worker then
emits `renderedImage` for that pass at line 208 and blocks in
`condition.wait` at line 210, where it stays; `run()` has not returned. -/
theorem abort_during_tasks_emits_and_waits :
    atTasks.loc = Loc.tasks ∧ atTasks._restart = false ∧ atTasks._abort = false ∧
    atTasks.emitted = [] ∧
    (execAll atTasks [Event.call Call.abort, Event.step])._abort = true ∧
    (execAll atTasks [Event.call Call.abort, Event.step])._restart = false ∧
    (execAll atTasks [Event.call Call.abort, Event.step, Event.step]).emitted = [1 / 200] ∧
    (execAll atTasks [Event.call Call.abort, Event.step, Event.step, Event.step]).loc =
      Loc.waiting ∧
    isRunning (execAll atTasks
      [Event.call Call.abort, Event.step, Event.step, Event.step, Event.step]) = true := by
  refine ⟨by decide, by decide, by decide, rfl, by decide, by decide, rfl, by decide, by decide⟩

/-- C5 fails on the code: `render(paramsB)` arrives after the worker has taken
its snapshot and before the check of line 180.  The worker observes the restart
flag with the abort flag clear, leaves the `forever` loop and `run()` returns:
the thread stops, with the restart flag still set.  The next `render()` call
starts the thread again and it stops at line 180 once more. -/
theorem restart_before_tasks_stops_worker :
    (execAll (initial paramsA)
      [Event.call (Call.render paramsA), Event.step, Event.call (Call.render paramsB)]).loc =
      Loc.check180 ∧
    (execAll (initial paramsA)
      [Event.call (Call.render paramsA), Event.step, Event.call (Call.render paramsB)])._restart =
      true ∧
    (execAll (initial paramsA)
      [Event.call (Call.render paramsA), Event.step, Event.call (Call.render paramsB)])._abort =
      false ∧
    (execAll (initial paramsA)
      [Event.call (Call.render paramsA), Event.step, Event.call (Call.render paramsB),
        Event.step]).loc = Loc.stopped ∧
    (execAll (initial paramsA)
      [Event.call (Call.render paramsA), Event.step, Event.call (Call.render paramsB),
        Event.step])._restart = true ∧
    (execAll (initial paramsA)
      [Event.call (Call.render paramsA), Event.step, Event.call (Call.render paramsB),
        Event.step, Event.call (Call.render paramsB), Event.step, Event.step]).loc =
      Loc.stopped ∧
    (execAll (initial paramsA)
      [Event.call (Call.render paramsA), Event.step, Event.call (Call.render paramsB),
        Event.step, Event.call (Call.render paramsB), Event.step, Event.step]).emitted = [] := by
  refine ⟨by decide, by decide, by decide, by decide, by decide, by decide, rfl⟩

/-- C6: `renderedImage` is emitted by a worker step only at the check of line
208 and only with the restart flag clear there.  If the flag is set at that
check, the step emits nothing, and whatever calls other threads make before the
worker takes the lock at line 209, the next worker step does not wait: it
clears the restart flag and puts the worker at the top of the next pass, still
without an emission. -/
theorem emission_check (t : Thread) (cs : List Call) (hloc : t.loc = Loc.emit208) :
    ((workerStep t).emitted = t.emitted ++ [t.snapshot.scaleFactor] ↔ t._restart = false) ∧
    (t._restart = true →
      (workerStep t).emitted = t.emitted ∧ (workerStep t).loc = Loc.lock209 ∧
      (workerStep (calls (workerStep t) cs)).loc = Loc.top ∧
      (workerStep (calls (workerStep t) cs))._restart = false ∧
      (workerStep (calls (workerStep t) cs)).emitted = t.emitted) ∧
    (∀ u : Thread, (workerStep u).emitted ≠ u.emitted →
      u.loc = Loc.emit208 ∧ u._restart = false) := by
  refine ⟨?_, ?_, workerStep_emits⟩
  · cases hr : t._restart
    · simp [workerStep, hloc, hr]
    · simp [workerStep, hloc, hr]
  · intro hr
    have h1 : (workerStep t).emitted = t.emitted := by simp [workerStep, hloc, hr]
    have h2 : (workerStep t).loc = Loc.lock209 := by simp [workerStep, hloc, hr]
    have h3 : (workerStep t)._restart = true := by simp [workerStep, hloc, hr]
    obtain ⟨h4, h5, h6⟩ := calls_at_lock209 cs (workerStep t) h2 h3
    obtain ⟨h7, h8, h9⟩ := workerStep_lock209 _ h4 h5
    exact ⟨h1, h2, h7, h8, h9.trans (h6.trans h1)⟩

/-- Witness of C6: the first pass superseded by `render(paramsB)` during its
shift tasks, and `abort()` called between lines 208 and 209. -/
theorem emission_check_witness :
    atEmitSuperseded.loc = Loc.emit208 ∧ atEmitSuperseded._restart = true ∧
    (workerStep atEmitSuperseded).emitted = [] ∧
    (workerStep (calls (workerStep atEmitSuperseded) [Call.abort])).loc = Loc.top ∧
    (workerStep (calls (workerStep atEmitSuperseded) [Call.abort]))._restart = false ∧
    (workerStep (calls (workerStep atEmitSuperseded) [Call.abort])).emitted = [] :=
  ⟨by decide, by decide,
    ((emission_check atEmitSuperseded [Call.abort] (by decide)).2.1 (by decide)).1,
    ((emission_check atEmitSuperseded [Call.abort] (by decide)).2.1 (by decide)).2.2.1,
    ((emission_check atEmitSuperseded [Call.abort] (by decide)).2.1 (by decide)).2.2.2.1,
    ((emission_check atEmitSuperseded [Call.abort] (by decide)).2.1 (by decide)).2.2.2.2⟩

/-! ## The pixels of one shift -/

/-- C20: for every image size `width x height` with both positive, every gap
`≥ 1` and every shift with components in `0..gap-1`, every buffer coordinate
written by `calculateInterlacedShift` (with `halfWidth = width / 2`,
`halfHeight = height / 2`) lies inside the image, whatever the task observes
of the flags and of the random generator. -/
theorem writes_inside_image (env : TaskEnv) (width height gap shift_x shift_y : Int)
    (center_x center_y : ℚ) (supersample_scale : Int) (MaxIterations : Nat)
    (hwidth : 0 < width) (hheight : 0 < height) (hg : 1 ≤ gap)
    (hsx : 0 ≤ shift_x ∧ shift_x < gap) (hsy : 0 ≤ shift_y ∧ shift_y < gap) :
    ∀ c ∈ written (calculateInterlacedShift env (Int.tdiv width 2) (Int.tdiv height 2) gap
        shift_x shift_y center_x center_y supersample_scale MaxIterations),
      0 ≤ c.1 ∧ c.1 < width ∧ 0 ≤ c.2 ∧ c.2 < height := by
  intro c hc
  obtain ⟨i, j, e, hi, hj⟩ := written_form _ _ _ _ _ _ _ _ _ _ _ hc
  have hw2 : Int.tdiv width 2 = width / 2 := by
    rw [Int.tdiv_eq_ediv] <;> omega
  have hh2 : Int.tdiv height 2 = height / 2 := by
    rw [Int.tdiv_eq_ediv] <;> omega
  have hi0 : 0 ≤ gap * (i : Int) := mul_nonneg (by omega) (Int.ofNat_nonneg i)
  have hj0 : 0 ≤ gap * (j : Int) := mul_nonneg (by omega) (Int.ofNat_nonneg j)
  rw [e]
  simp only
  omega

/-- Witness of C20: a 3 x 3 image, gap 10, shift `(0, 0)`, the write at
`(0, 0)`. -/
theorem writes_inside_image_witness :
    (0, 0) ∈ written (calculateInterlacedShift (quietEnv (1 / 200)) (Int.tdiv 3 2)
        (Int.tdiv 3 2) 10 0 0 0 0 1 2) ∧
      (0 : Int) ≤ 0 ∧ (0 : Int) < 3 ∧ (0 : Int) ≤ 0 ∧ (0 : Int) < 3 :=
  ⟨written_of_noCancel (quietEnv (1 / 200)) (quietEnv_noCancel _) (Int.tdiv 3 2)
      (Int.tdiv 3 2) 10 0 0 0 0 1 2 (by decide) (by decide) (by decide) 0 0 (by decide)
      (by decide),
    writes_inside_image (quietEnv (1 / 200)) 3 3 10 0 0 0 0 1 2 (by decide) (by decide)
      (by decide) (by decide) (by decide) (0, 0)
      (written_of_noCancel (quietEnv (1 / 200)) (quietEnv_noCancel _) (Int.tdiv 3 2)
        (Int.tdiv 3 2) 10 0 0 0 0 1 2 (by decide) (by decide) (by decide) 0 0 (by decide)
        (by decide))⟩

/-! ## The shift list -/

theorem succ_divMod (g n : Nat) (hg : 1 ≤ g) :
    (n % g + 1 < g → (n + 1) % g = n % g + 1 ∧ (n + 1) / g = n / g) ∧
    (¬ n % g + 1 < g → (n + 1) % g = 0 ∧ (n + 1) / g = n / g + 1) := by
  have hlt : n % g < g := Nat.mod_lt _ (by omega)
  have hdm : n % g + g * (n / g) = n := Nat.mod_add_div n g
  constructor
  · intro h
    have := (Nat.div_mod_unique (a := n + 1) (b := g) (c := n % g + 1) (d := n / g)
      (by omega)).2 ⟨by omega, h⟩
    exact ⟨this.2, this.1⟩
  · intro h
    have := (Nat.div_mod_unique (a := n + 1) (b := g) (c := 0) (d := n / g + 1)
      (by omega)).2 ⟨by rw [Nat.mul_add]; omega, by omega⟩
    exact ⟨this.2, this.1⟩

theorem shiftLoop_eq (g : Nat) (hg : 1 ≤ g) :
    ∀ (fuel n : Nat), n ≤ g * g →
      shiftLoop (g : Int) fuel ((n % g : Nat) : Int) ((n / g : Nat) : Int) =
        (List.range' n (min fuel (g * g - n))).map
          (fun k => (((k % g : Nat) : Int), ((k / g : Nat) : Int))) := by
  intro fuel
  induction fuel with
  | zero => intro n _; simp [shiftLoop]
  | succ fuel ih =>
    intro n hn
    by_cases hlt : n < g * g
    · have hdiv : n / g < g := (Nat.div_lt_iff_lt_mul (by omega)).2 hlt
      have hy : ((n / g : Nat) : Int) < (g : Int) := by exact_mod_cast hdiv
      have hmin : min (fuel + 1) (g * g - n) = min fuel (g * g - (n + 1)) + 1 := by omega
      obtain ⟨h1, h2⟩ := succ_divMod g n hg
      have ih1 := ih (n + 1) (by omega)
      simp only [shiftLoop, hy, if_true, hmin, List.range'_succ, List.map_cons]
      congr 1
      by_cases hx : n % g + 1 < g
      · have hx1 : ((n % g : Nat) : Int) < (g : Int) - 1 := by omega
        obtain ⟨e1, e2⟩ := h1 hx
        rw [if_pos hx1, ← ih1, e1, e2]
        push_cast
        rfl
      · have hx1 : ¬ ((n % g : Nat) : Int) < (g : Int) - 1 := by omega
        obtain ⟨e1, e2⟩ := h2 hx
        rw [if_neg hx1, ← ih1, e1, e2]
        push_cast
        rfl
    · have hn1 : n = g * g := by omega
      have hdiv : n / g = g := by
        rw [hn1]
        exact Nat.mul_div_cancel _ (by omega)
      have hy : ¬ ((n / g : Nat) : Int) < (g : Int) := by
        rw [hdiv]
        omega
      have hmin : min (fuel + 1) (g * g - n) = 0 := by omega
      simp only [shiftLoop, hy, if_false, hmin, List.range'_zero, List.map_nil]

theorem shiftLoop_from_zero (g : Nat) (hg : 1 ≤ g) (k : Nat) :
    shiftLoop (g : Int) (g * g + k) 0 0 =
      (List.range (g * g)).map (fun k => (((k % g : Nat) : Int), ((k / g : Nat) : Int))) := by
  have h := shiftLoop_eq g hg (g * g + k) 0 (Nat.zero_le _)
  have hmin : min (g * g + k) (g * g - 0) = g * g := by omega
  rw [hmin, ← List.range_eq_range'] at h
  simpa using h

/-- C13: for every gap `g ≥ 1` (10 in the source) the loop of lines 190-198
terminates after `g * g` rounds (more fuel gives the same list) and `shifts`
is the row-major list whose `k`-th element is `(k mod g, k div g)`; it has
`g * g` elements, no element occurs twice, and its elements are exactly the
pairs of `{0..g-1} x {0..g-1}`. -/
theorem shifts_row_major (g : Nat) (hg : 1 ≤ g) :
    shifts (g : Int) =
      (List.range (g * g)).map (fun k => (((k % g : Nat) : Int), ((k / g : Nat) : Int))) ∧
    (∀ k : Nat, shiftLoop (g : Int) (g * g + k) 0 0 = shifts (g : Int)) ∧
    (shifts (g : Int)).length = g * g ∧
    (∀ k : Nat, k < g * g →
      (shifts (g : Int)).get? k = some (((k % g : Nat) : Int), ((k / g : Nat) : Int))) ∧
    (shifts (g : Int)).Nodup ∧
    (∀ a b : Int, (a, b) ∈ shifts (g : Int) ↔ 0 ≤ a ∧ a < g ∧ 0 ≤ b ∧ b < g) := by
  have hfuel : ((g : Int) * (g : Int)).toNat = g * g := by
    rw [← Nat.cast_mul, Int.toNat_natCast]
  have hs : shifts (g : Int) =
      (List.range (g * g)).map (fun k => (((k % g : Nat) : Int), ((k / g : Nat) : Int))) := by
    unfold shifts
    rw [hfuel]
    exact shiftLoop_from_zero g hg 0
  refine ⟨hs, ?_, ?_, ?_, ?_, ?_⟩
  · intro k
    rw [hs]
    exact shiftLoop_from_zero g hg k
  · rw [hs]
    simp
  · intro k hk
    rw [hs]
    simp [List.getElem?_range hk]
  · rw [hs]
    apply List.Nodup.map_on _ (List.nodup_range _)
    intro x _ y _ hxy
    have h1 : x % g = y % g := by
      have h : ((x % g : Nat) : Int) = ((y % g : Nat) : Int) := congrArg Prod.fst hxy
      exact_mod_cast h
    have h2 : x / g = y / g := by
      have h : ((x / g : Nat) : Int) = ((y / g : Nat) : Int) := congrArg Prod.snd hxy
      exact_mod_cast h
    rw [← Nat.mod_add_div x g, ← Nat.mod_add_div y g, h1, h2]
  · intro a b
    rw [hs, List.mem_map]
    constructor
    · rintro ⟨k, hk, e⟩
      have hk1 := List.mem_range.1 hk
      have ha : ((k % g : Nat) : Int) = a := congrArg Prod.fst e
      have hb : ((k / g : Nat) : Int) = b := congrArg Prod.snd e
      have hm : k % g < g := Nat.mod_lt _ (by omega)
      have hd : k / g < g := (Nat.div_lt_iff_lt_mul (by omega)).2 hk1
      generalize k % g = r at ha hm
      generalize k / g = q at hb hd
      omega
    · rintro ⟨h1, h2, h3, h4⟩
      have hb : b.toNat < g := by omega
      have ha : a.toNat < g := by omega
      have hu := (Nat.div_mod_unique (a := a.toNat + g * b.toNat) (b := g) (c := a.toNat)
        (d := b.toNat) (by omega)).2 ⟨rfl, ha⟩
      refine ⟨a.toNat + g * b.toNat, List.mem_range.2 ?_, ?_⟩
      · calc a.toNat + g * b.toNat < g + g * b.toNat := by omega
          _ = g * (b.toNat + 1) := by ring
          _ ≤ g * g := Nat.mul_le_mul_left _ (by omega)
      · rw [hu.1, hu.2]
        apply Prod.ext
        · simp only; omega
        · simp only; omega

/-- Witness of C13 at the gap 10 of the source. -/
theorem shifts_row_major_witness :
    (shifts 10).length = 100 ∧ (shifts 10).get? 37 = some (7, 3) ∧ (shifts 10).Nodup :=
  ⟨(shifts_row_major 10 (by decide)).2.2.1,
    (shifts_row_major 10 (by decide)).2.2.2.1 37 (by decide),
    (shifts_row_major 10 (by decide)).2.2.2.2.1⟩

/-! ## The iteration budget of a pass -/

/-- C14, as the code has it: a non-zero requested `maxIterations` is used
unchanged; for a requested `0` and a positive `scaleFactor` the pass uses
`1000 + factor^2`, where `factor` is the double quotient
`1 / (scaleFactor * 5000)` (product and quotient rounded to double, the
quotient `f` not negative) truncated to an unsigned integer, as long as
`factor < 2^32` (so that the 64-bit unsigned product and sum do not wrap). -/
theorem passMaxIterations_truncates (scaleFactor : ℚ) (maxIterations : Nat)
    (hs : 0 < scaleFactor) :
    (maxIterations ≠ 0 → passMaxIterations scaleFactor maxIterations = maxIterations) ∧
    (∀ f : ℚ, scaleQuotient scaleFactor = some f → ⌊f⌋ < 2 ^ 32 →
      0 ≤ f ∧ passMaxIterations scaleFactor 0 = 1000 + (Int.toNat ⌊f⌋) ^ 2) := by
  constructor
  · intro h
    simp [passMaxIterations, h]
  · intro f hq h
    have h1 : Int.toNat ⌊f⌋ < 2 ^ 32 := by omega
    have h2 : Int.toNat ⌊f⌋ % 2 ^ 64 = Int.toNat ⌊f⌋ := Nat.mod_eq_of_lt (by omega)
    have h3 : (Int.toNat ⌊f⌋) ^ 2 < 2 ^ 64 - 2 ^ 32 := by
      have : (Int.toNat ⌊f⌋) ^ 2 ≤ (2 ^ 32 - 1) ^ 2 := Nat.pow_le_pow_left (by omega) 2
      omega
    refine ⟨scaleQuotient_nonneg scaleFactor f hs hq, ?_⟩
    simp only [passMaxIterations, if_true, hq, h2]
    rw [← pow_two]
    exact Nat.mod_eq_of_lt (by omega)

theorem scaleQuotient_two_tenthousandths :
    scaleQuotient (7378697629483821 / 36893488147419103232) = some 1 := by
  exact scaleQuotient_eval (7378697629483821 / 36893488147419103232) 1 1
      (by apply roundDouble_of_pos _ _ 0 4503599627370496 <;> norm_num)
      (by norm_num)
      (by apply roundDouble_of_pos _ _ 0 4503599627370496 <;> norm_num)

/-- Witness of C14 at the double `0.0002`, which is
`7378697629483821 / 2^65`: the product `0.0002 * 5000.0` rounds to `1`, the
quotient is `1`, and the budget is `1001`; the requested budget 100 is used
unchanged. -/
theorem passMaxIterations_truncates_witness :
    passMaxIterations (7378697629483821 / 36893488147419103232) 100 = 100 ∧
    (0 : ℚ) ≤ 1 ∧
    passMaxIterations (7378697629483821 / 36893488147419103232) 0 =
      1000 + (Int.toNat ⌊(1 : ℚ)⌋) ^ 2 :=
  ⟨(passMaxIterations_truncates (7378697629483821 / 36893488147419103232) 100
      (by norm_num)).1 (by decide),
    (passMaxIterations_truncates (7378697629483821 / 36893488147419103232) 0
      (by norm_num)).2 1 scaleQuotient_two_tenthousandths (by norm_num)⟩

theorem scaleQuotient_pow :
    scaleQuotient (1 / 16384) = some (7378697629483821 / 2251799813685248) := by
  exact scaleQuotient_eval (1 / 16384) (625 / 2048) (7378697629483821 / 2251799813685248)
      (by apply roundDouble_of_pos _ _ (-2) 5497558138880000 <;> norm_num)
      (by norm_num)
      (by apply roundDouble_of_pos _ _ 1 7378697629483821 <;> norm_num)

/-- C14 fails on the code: for `scaleFactor = 2^-14 = 1/16384` the product
`scaleFactor * 5000` is the double `625/2048`, the factor
`1 / (scaleFactor * 5000)` is `2048/625 = 3.2768` (as a double
`7378697629483821 / 2^51`), the claim gives `1000 + 3.2768^2`, and the pass
uses `1000 + 3^2 = 1009`. -/
theorem passMaxIterations_not_exact :
    (1 : ℚ) / (1 / 16384 * 5000) = 2048 / 625 ∧
    scaleQuotient (1 / 16384) = some (7378697629483821 / 2251799813685248) ∧
    passMaxIterations (1 / 16384) 0 = 1009 ∧
    ((passMaxIterations (1 / 16384) 0 : Nat) : ℚ) ≠ 1000 + (1 / (1 / 16384 * 5000)) ^ 2 ∧
    ((passMaxIterations (1 / 16384) 0 : Nat) : ℚ) ≠
      1000 + (7378697629483821 / 2251799813685248) ^ 2 := by
  have hq := scaleQuotient_pow
  have h : ⌊((7378697629483821 / 2251799813685248) : ℚ)⌋ = 3 := by
    rw [Int.floor_eq_iff]; norm_num
  have hp : passMaxIterations (1 / 16384) 0 = 1009 := by
    simp only [passMaxIterations, hq, h]
    decide
  refine ⟨by norm_num, hq, hp, ?_, ?_⟩
  · rw [hp]
    norm_num
  · rw [hp]
    norm_num

theorem scaleQuotient_one_tenthousandth :
    scaleQuotient (7378697629483821 / 73786976294838206464) = some 2 := by
  exact scaleQuotient_eval (7378697629483821 / 73786976294838206464) (1 / 2) 2
      (by apply roundDouble_of_pos _ _ (-1) 4503599627370496 <;> norm_num)
      (by norm_num)
      (by apply roundDouble_of_pos _ _ 1 4503599627370496 <;> norm_num)

theorem scaleQuotient_one_hundredthousandth :
    scaleQuotient (5902958103587057 / 590295810358705651712) = some 20 := by
  exact scaleQuotient_eval (5902958103587057 / 590295810358705651712) (3602879701896397 / 72057594037927936) 20
      (by apply roundDouble_of_pos _ _ (-5) 7205759403792794 <;> norm_num)
      (by norm_num)
      (by apply roundDouble_of_pos _ _ 4 5629499534213120 <;> norm_num)

/-- The budgets at the doubles `0.0001` and `0.00001`: the products round to
`0.5` and `0.05`, the quotients are `2` and `20`, the budgets `1004` and
`1400`. -/
theorem passMaxIterations_rounded_products :
    passMaxIterations (7378697629483821 / 73786976294838206464) 0 = 1004 ∧
    passMaxIterations (5902958103587057 / 590295810358705651712) 0 = 1400 := by
  have h2 : ⌊(2 : ℚ)⌋ = 2 := Int.floor_ofNat 2
  have h20 : ⌊(20 : ℚ)⌋ = 20 := Int.floor_ofNat 20
  constructor
  · simp only [passMaxIterations, scaleQuotient_one_tenthousandth, h2]
    decide
  · simp only [passMaxIterations, scaleQuotient_one_hundredthousandth, h20]
    decide

/-! ## The supersample offset -/

theorem sampleCoord_of_pos (center : ℚ) (d : Int) (r : Nat) (scaleFactor : ℚ) (hr : 1 ≤ r) :
    ∃ offset : ℚ, 0 < offset ∧ offset ≤ 1 ∧
      sampleCoord center d r scaleFactor =
        some (center + ((d : ℚ) + offset - 1 / 2) * scaleFactor) := by
  have hr0 : (0 : ℚ) < r := by exact_mod_cast hr
  have hr1 : (1 : ℚ) ≤ r := by exact_mod_cast hr
  refine ⟨1 / (r : ℚ), one_div_pos.2 hr0, (div_le_one hr0).2 hr1, ?_⟩
  have hne : r ≠ 0 := by omega
  simp only [sampleCoord, hne, if_false, lerp]
  congr 2
  ring

/-- C17 fails on the code when `qrand()` returns `0`: the offset
`1 / static_cast<double>(qrand())` is a division by zero, the sample
coordinate is not a number of the pixel square, and (half-extents 1, shift
`(0, 0)`, one sample) no colour is defined for the pixel written at `(0, 0)`. -/
theorem zero_draw_divides_by_zero :
    sampleCoord 0 (-1) 0 (1 / 200) = none ∧
    sampleAt (fun _ _ _ => ⟨255, 255, 255⟩) 0 0 2 (-1) (-1) 0 0 (1 / 200) (1 / 200) = none ∧
    (calculateInterlacedShift (zeroDrawEnv (1 / 200)) 1 1 10 0 0 0 0 1 2).image =
      [(0, 0, none)] := by
  have e : (2 * (1 : Int)).toNat = 2 := by decide
  have e1 : (1 : Int).toNat = 1 := by decide
  refine ⟨rfl, rfl, ?_⟩
  simp only [calculateInterlacedShift, e, forRange, rowLoop, colLoop, e1, sampleLoop,
    zeroDrawEnv]
  norm_num [sampleAt, sampleCoord, pixelColor, List.allSome]
  rfl

/-! ## The average of the samples -/

theorem wrapInt32_add (a b : Int) : wrapInt32 (wrapInt32 a + b) = wrapInt32 (a + b) := by
  unfold wrapInt32
  omega

theorem wrapInt32_of_range (z : Int) (h0 : -2147483648 ≤ z) (h1 : z ≤ 2147483647) :
    wrapInt32 z = z := by
  unfold wrapInt32
  omega

theorem colorSum_foldl (l : List QColor) :
    ∀ acc : Int × Int × Int,
      l.foldl (fun acc color =>
        (wrapInt32 (acc.1 + color.red), wrapInt32 (acc.2.1 + color.green),
          wrapInt32 (acc.2.2 + color.blue))) (wrapInt32 acc.1, wrapInt32 acc.2.1, wrapInt32 acc.2.2) =
      (wrapInt32 (acc.1 + (l.map QColor.red).sum), wrapInt32 (acc.2.1 + (l.map QColor.green).sum),
        wrapInt32 (acc.2.2 + (l.map QColor.blue).sum)) := by
  induction l with
  | nil => intro acc; simp
  | cons c l ih =>
    intro acc
    simp only [List.foldl_cons, List.map_cons, List.sum_cons, wrapInt32_add]
    have h := ih (acc.1 + c.red, acc.2.1 + c.green, acc.2.2 + c.blue)
    simp only at h
    rw [h]
    simp only [add_assoc]

theorem colorSum_eq (l : List QColor) :
    colorSum l = (wrapInt32 (l.map QColor.red).sum, wrapInt32 (l.map QColor.green).sum,
      wrapInt32 (l.map QColor.blue).sum) := by
  unfold colorSum
  have h := colorSum_foldl l (0, 0, 0)
  simp only [zero_add] at h
  exact h

theorem channel_sum_bounds (f : QColor → Int) (l : List QColor)
    (h : ∀ c ∈ l, 0 ≤ f c ∧ f c ≤ 255) :
    0 ≤ (l.map f).sum ∧ (l.map f).sum ≤ 255 * l.length := by
  induction l with
  | nil => simp
  | cons c l ih =>
    have h1 := h c (List.mem_cons_self _ _)
    have h2 := ih (fun c hc => h c (List.mem_cons_of_mem _ hc))
    simp only [List.map_cons, List.sum_cons, List.length_cons]
    push_cast
    omega

theorem tdiv_channel (s n : Int) (hn : 1 ≤ n) (h0 : 0 ≤ s) (h1 : s ≤ 255 * n) :
    Int.tdiv s n = s / n ∧ 0 ≤ s / n ∧ s / n ≤ 255 := by
  refine ⟨Int.tdiv_eq_ediv h0 (by omega), Int.ediv_nonneg h0 (by omega), ?_⟩
  have : s / n < 256 := Int.ediv_lt_of_lt_mul (by omega) (by omega)
  omega

/-- C18, as the code has it: for every `n` with `1 ≤ n ≤ 8421504` (so that the
`int` accumulators, which hold at most `255 * n`, do not overflow) and every
list of exactly `n` colours with channels in `0..255`, each channel of
`colorAvgSum` is the floor of the channel sum divided by `n` and lies in
`0..255`; averaging `n` copies of one colour gives that colour. -/
theorem colorAvgSum_floor (n : Nat) (hn : 1 ≤ n) (hmax : n ≤ 8421504) (color_array : List QColor)
    (hlen : color_array.length = n)
    (hch : ∀ c ∈ color_array, (0 ≤ c.red ∧ c.red ≤ 255) ∧ (0 ≤ c.green ∧ c.green ≤ 255) ∧
      (0 ≤ c.blue ∧ c.blue ≤ 255)) :
    ((colorAvgSum color_array n).red = (color_array.map QColor.red).sum / n ∧
      0 ≤ (colorAvgSum color_array n).red ∧ (colorAvgSum color_array n).red ≤ 255) ∧
    ((colorAvgSum color_array n).green = (color_array.map QColor.green).sum / n ∧
      0 ≤ (colorAvgSum color_array n).green ∧ (colorAvgSum color_array n).green ≤ 255) ∧
    ((colorAvgSum color_array n).blue = (color_array.map QColor.blue).sum / n ∧
      0 ≤ (colorAvgSum color_array n).blue ∧ (colorAvgSum color_array n).blue ≤ 255) ∧
    (∀ c : QColor, color_array = List.replicate n c → colorAvgSum color_array n = c) := by
  have hn1 : (1 : Int) ≤ n := by exact_mod_cast hn
  have hr := channel_sum_bounds QColor.red color_array (fun c hc => (hch c hc).1)
  have hg := channel_sum_bounds QColor.green color_array (fun c hc => (hch c hc).2.1)
  have hb := channel_sum_bounds QColor.blue color_array (fun c hc => (hch c hc).2.2)
  rw [hlen] at hr hg hb
  have wr := wrapInt32_of_range _ (by omega) (by omega : (color_array.map QColor.red).sum ≤ 2147483647)
  have wg := wrapInt32_of_range _ (by omega) (by omega : (color_array.map QColor.green).sum ≤ 2147483647)
  have wb := wrapInt32_of_range _ (by omega) (by omega : (color_array.map QColor.blue).sum ≤ 2147483647)
  obtain ⟨r1, r2, r3⟩ := tdiv_channel _ n hn1 hr.1 hr.2
  obtain ⟨g1, g2, g3⟩ := tdiv_channel _ n hn1 hg.1 hg.2
  obtain ⟨b1, b2, b3⟩ := tdiv_channel _ n hn1 hb.1 hb.2
  have hred : (colorAvgSum color_array n).red = (color_array.map QColor.red).sum / n := by
    simp only [colorAvgSum, colorSum_eq, wr, r1]
  have hgreen : (colorAvgSum color_array n).green =
      (color_array.map QColor.green).sum / n := by
    simp only [colorAvgSum, colorSum_eq, wg, g1]
  have hblue : (colorAvgSum color_array n).blue = (color_array.map QColor.blue).sum / n := by
    simp only [colorAvgSum, colorSum_eq, wb, b1]
  refine ⟨⟨hred, by rw [hred]; exact r2, by rw [hred]; exact r3⟩,
    ⟨hgreen, by rw [hgreen]; exact g2, by rw [hgreen]; exact g3⟩,
    ⟨hblue, by rw [hblue]; exact b2, by rw [hblue]; exact b3⟩, ?_⟩
  intro c hc
  have hn0 : (n : Int) ≠ 0 := by omega
  have hsum : ∀ f : QColor → Int, ((List.replicate n c).map f).sum / (n : Int) = f c := by
    intro f
    rw [List.map_replicate, List.sum_replicate, nsmul_eq_mul]
    exact Int.mul_ediv_cancel_left _ hn0
  have e1 : (colorAvgSum color_array n).red = c.red := by rw [hred, hc]; exact hsum _
  have e2 : (colorAvgSum color_array n).green = c.green := by rw [hgreen, hc]; exact hsum _
  have e3 : (colorAvgSum color_array n).blue = c.blue := by rw [hblue, hc]; exact hsum _
  cases hcol : colorAvgSum color_array n with
  | mk r g b =>
    rw [hcol] at e1 e2 e3
    cases c with
    | mk cr cg cb =>
      simp only at e1 e2 e3
      rw [e1, e2, e3]

/-- Witness of C18: three samples `(10, 20, 30)`, `(11, 20, 30)`, `(12, 21, 30)`. -/
theorem colorAvgSum_floor_witness :
    (colorAvgSum [⟨10, 20, 30⟩, ⟨11, 20, 30⟩, ⟨12, 21, 30⟩] 3).red =
        (([⟨10, 20, 30⟩, ⟨11, 20, 30⟩, ⟨12, 21, 30⟩] : List QColor).map QColor.red).sum / 3 ∧
      0 ≤ (colorAvgSum [⟨10, 20, 30⟩, ⟨11, 20, 30⟩, ⟨12, 21, 30⟩] 3).red ∧
      (colorAvgSum [⟨10, 20, 30⟩, ⟨11, 20, 30⟩, ⟨12, 21, 30⟩] 3).red ≤ 255 :=
  (colorAvgSum_floor 3 (by decide) (by decide) [⟨10, 20, 30⟩, ⟨11, 20, 30⟩, ⟨12, 21, 30⟩] rfl
    (by decide)).1

/-- C18 fails for `n = 8421505` samples of the colour `(255, 255, 255)`: the
channel sum `2147483775` does not fit the `int` accumulator, which wraps to
`-2147483521`; the division by `n` gives `-254` for every channel, not the
floor `255` of the average, not a value in `0..255`, and not the colour that
was averaged. -/
theorem colorAvgSum_overflow :
    (List.replicate 8421505 (⟨255, 255, 255⟩ : QColor)).length = 8421505 ∧
    ((List.replicate 8421505 (⟨255, 255, 255⟩ : QColor)).map QColor.red).sum / 8421505 = 255 ∧
    colorAvgSum (List.replicate 8421505 ⟨255, 255, 255⟩) 8421505 = ⟨-254, -254, -254⟩ ∧
    colorAvgSum (List.replicate 8421505 ⟨255, 255, 255⟩) 8421505 ≠ ⟨255, 255, 255⟩ := by
  have hs : ∀ f : QColor → Int, f ⟨255, 255, 255⟩ = 255 →
      ((List.replicate 8421505 (⟨255, 255, 255⟩ : QColor)).map f).sum = 2147483775 := by
    intro f hf
    rw [List.map_replicate, List.sum_replicate, nsmul_eq_mul, hf]
    norm_num
  have hc : colorAvgSum (List.replicate 8421505 ⟨255, 255, 255⟩) 8421505 = ⟨-254, -254, -254⟩ := by
    simp only [colorAvgSum, colorSum_eq, hs QColor.red rfl, hs QColor.green rfl,
      hs QColor.blue rfl]
    decide
  refine ⟨List.length_replicate _ _, ?_, hc, ?_⟩
  · rw [hs QColor.red rfl]; decide
  · rw [hc]; decide

/-! ## The palette -/

theorem qRound_int (n : Int) : qRound ((n : ℚ) / 65535 * 65535) = n := by
  unfold qRound
  rw [Int.floor_eq_iff]
  constructor
  · have : (n : ℚ) / 65535 * 65535 = n := by field_simp
    rw [this]; linarith
  · have : (n : ℚ) / 65535 * 65535 = n := by field_simp
    rw [this]; linarith

theorem myColorInterpolator_zero (start finish : Rgb16) :
    myColorInterpolator start finish 0 = start := by
  unfold myColorInterpolator fromRgbF lerp
  simp only [sub_zero, one_mul, zero_mul, add_zero, qRound_int]

theorem controlIndex_lt (N i : Nat) (hN : 1 ≤ N) (hi : i < N) :
    controlIndex N i ≤ 11 ∧ controlIndex N i + 1 < mappingSize := by
  have hN0 : (0 : ℚ) < N := by exact_mod_cast hN
  have hlt : (i : ℚ) * (12 / (N : ℚ)) < 12 := by
    have hiN : (i : ℚ) < N := by exact_mod_cast hi
    rw [mul_div_assoc', div_lt_iff₀ hN0]
    nlinarith
  have h0 : (0 : ℚ) ≤ (i : ℚ) * (12 / (N : ℚ)) := by positivity
  have hf : ⌊(i : ℚ) * (12 / (N : ℚ))⌋ < 12 := by
    rw [Int.floor_lt]
    exact_mod_cast hlt
  have hf0 : 0 ≤ ⌊(i : ℚ) * (12 / (N : ℚ))⌋ := Int.floor_nonneg.2 h0
  unfold controlIndex mappingSize
  omega

theorem toQColor_setRgb (c : QColor) (h : c ∈ mappingSet) : toQColor (setRgb c) = c := by
  revert c
  decide

/-- C15: for every table size `N ≥ 1` and every index `i < N` for which
`i * 12 / N` is an integer `k`, the control index is `k`, the blend factor is
0 and `colormap[i]` is the control colour `mapping[k]`, one of the twelve
colours set by the constructor; `lerp(v0, v1, 0) = v0` and
`lerp(v0, v1, 1) = v1`; and `colormap[0]` is the first control colour
`(25, 7, 26)`. -/
theorem colormap_exact_at_control (N i k : Nat) (hN : 1 ≤ N) (hi : i < N)
    (hk : i * 12 = k * N) :
    controlIndex N i = k ∧ blendFactor N i = 0 ∧
    colormapEntry N i = mapping k ∧ mappingAssigned k = true ∧
    (∀ v0 v1 : ℚ, lerp v0 v1 0 = v0 ∧ lerp v0 v1 1 = v1) ∧
    colormapEntry N 0 = setRgb ⟨25, 7, 26⟩ ∧
    toQColor (colormapEntry N 0) = ⟨25, 7, 26⟩ := by
  have hN0 : (N : ℚ) ≠ 0 := by
    have : (0 : ℚ) < N := by exact_mod_cast hN
    exact ne_of_gt this
  have hval : (i : ℚ) * (12 / (N : ℚ)) = (k : ℚ) := by
    have h : ((i * 12 : Nat) : ℚ) = ((k * N : Nat) : ℚ) := by rw [hk]
    push_cast at h
    field_simp
    linarith
  have hfl : ⌊(i : ℚ) * (12 / (N : ℚ))⌋ = (k : Int) := by
    rw [hval]
    exact Int.floor_natCast k
  have hidx : controlIndex N i = k := by
    unfold controlIndex
    rw [hfl]
    exact Int.toNat_natCast k
  have hbl : blendFactor N i = 0 := by
    unfold blendFactor
    rw [hfl, hval]
    simp
  have hk11 : k ≤ 11 := by
    have := (controlIndex_lt N i hN hi).1
    omega
  have hzero : colormapEntry N 0 = setRgb ⟨25, 7, 26⟩ := by
    have h0 : controlIndex N 0 = 0 := by simp [controlIndex]
    have hb0 : blendFactor N 0 = 0 := by simp [blendFactor]
    unfold colormapEntry
    rw [h0, hb0, myColorInterpolator_zero]
    rfl
  refine ⟨hidx, hbl, ?_, ?_, ?_, hzero, ?_⟩
  · unfold colormapEntry
    rw [hidx, hbl, myColorInterpolator_zero]
  · interval_cases k <;> rfl
  · intro v0 v1
    unfold lerp
    constructor <;> ring
  · rw [hzero]
    rfl

/-- Witness of C15: table size 24, index 4, control colour 2. -/
theorem colormap_exact_at_control_witness :
    colormapEntry 24 4 = mapping 2 ∧ toQColor (colormapEntry 24 0) = ⟨25, 7, 26⟩ :=
  ⟨(colormap_exact_at_control 24 4 2 (by decide) (by decide) (by decide)).2.2.1,
    (colormap_exact_at_control 24 4 2 (by decide) (by decide) (by decide)).2.2.2.2.2.2⟩

theorem controlIndex_last (N : Nat) (hN : 12 ≤ N) : controlIndex N (N - 1) = 11 := by
  have hN0 : (0 : ℚ) < N := by
    have : 0 < N := by omega
    exact_mod_cast this
  have hcast : ((N - 1 : Nat) : ℚ) = (N : ℚ) - 1 := by
    rw [Nat.cast_sub (by omega)]
    simp
  have hN12 : (12 : ℚ) ≤ N := by exact_mod_cast hN
  have hfl : ⌊((N - 1 : Nat) : ℚ) * (12 / (N : ℚ))⌋ = 11 := by
    rw [Int.floor_eq_iff, hcast]
    constructor
    · rw [mul_div_assoc', le_div_iff₀ hN0]
      push_cast
      linarith
    · rw [mul_div_assoc', div_lt_iff₀ hN0]
      push_cast
      linarith
  unfold controlIndex
  rw [hfl]
  rfl

/-- C16 fails on the code: the constructor sets `mapping[0]` to `mapping[11]`
only, and for every table size `N ≥ 12` the last entry `i = N - 1` has control
index 11, so its second control point is `mapping[12]`, which lies inside the
array of 16 but is never assigned.  For `N = 24` the entry `colormap[23]` is
the half-way blend of `(153, 87, 0)` with that default colour: `(76, 43, 0)`. -/
theorem last_entry_reads_unset_control :
    (∀ N : Nat, 12 ≤ N → controlIndex N (N - 1) + 1 = 12) ∧
    12 < mappingSize ∧ mappingAssigned 11 = true ∧ mappingAssigned 12 = false ∧
    controlIndex 24 23 + 1 = 12 ∧ blendFactor 24 23 = 1 / 2 ∧
    toQColor (mapping 11) = ⟨153, 87, 0⟩ ∧
    toQColor (colormapEntry 24 23) = ⟨76, 43, 0⟩ := by
  have h24 : controlIndex 24 23 = 11 := controlIndex_last 24 (by decide)
  have hfl : ⌊((23 : Nat) : ℚ) * (12 / ((24 : Nat) : ℚ))⌋ = 11 := by
    rw [Int.floor_eq_iff]
    norm_num
  have hb : blendFactor 24 23 = 1 / 2 := by
    unfold blendFactor
    rw [hfl]
    norm_num
  refine ⟨fun N hN => by rw [controlIndex_last N hN], by decide, rfl, rfl, by rw [h24], hb,
    rfl, ?_⟩
  unfold colormapEntry
  rw [h24, hb]
  have e1 : qRound (lerp (((153 * 257 : Int) : ℚ) / 65535) (((0 : Int) : ℚ) / 65535) (1 / 2) *
      65535) = 19661 := by
    unfold qRound lerp
    rw [Int.floor_eq_iff]
    norm_num
  have e2 : qRound (lerp (((87 * 257 : Int) : ℚ) / 65535) (((0 : Int) : ℚ) / 65535) (1 / 2) *
      65535) = 11180 := by
    unfold qRound lerp
    rw [Int.floor_eq_iff]
    norm_num
  have e3 : qRound (lerp (((0 * 257 : Int) : ℚ) / 65535) (((0 : Int) : ℚ) / 65535) (1 / 2) *
      65535) = 0 := by
    unfold qRound lerp
    rw [Int.floor_eq_iff]
    norm_num
  have hm11 : mapping 11 = ⟨153 * 257, 87 * 257, 0 * 257⟩ := rfl
  have hm12 : mapping (11 + 1) = ⟨0, 0, 0⟩ := rfl
  rw [hm11, hm12]
  simp only [myColorInterpolator, fromRgbF, e1, e2, e3]
  decide

/-! ## Escaped orbits -/

theorem toComplex_normSq (a b : ℚ) :
    Complex.abs (Complex.mk (a : ℝ) (b : ℝ)) ^ 2 = ((a * a + b * b : ℚ) : ℝ) := by
  rw [Complex.sq_abs, Complex.normSq_mk]
  push_cast
  ring

theorem escaped_step (z c : ℂ) (hz : 256 < Complex.abs z) (hc : Complex.abs c ≤ Complex.abs z) :
    1 < Complex.abs (z - (z * z + c)) ∧ 256 < Complex.abs (z * z + c) ∧
      Complex.abs c ≤ Complex.abs (z * z + c) := by
  have h1 : Complex.abs (z * z) = Complex.abs z * Complex.abs z := map_mul _ _ _
  have h2 : Complex.abs (z * z) ≤ Complex.abs (z * z + c) + Complex.abs c := by
    have := Complex.abs.add_le (z * z + c) (-c)
    simpa using this
  have h3 : Complex.abs (z * z + c) ≤ Complex.abs (z - (z * z + c)) + Complex.abs z := by
    have := Complex.abs.add_le (z * z + c - z) z
    rw [Complex.abs.map_sub z]
    simpa using this
  have h4 : 256 * Complex.abs z < Complex.abs z * Complex.abs z := by nlinarith
  refine ⟨by nlinarith, by nlinarith, by nlinarith⟩

theorem escaped_round (x0 y0 cr ci : ℚ) (h1 : Limit < cr * cr + ci * ci)
    (h2 : x0 * x0 + y0 * y0 ≤ cr * cr + ci * ci) :
    periodicCheck cr ci (cr * cr - ci * ci + x0) (2 * cr * ci + y0) = false ∧
    Limit < (cr * cr - ci * ci + x0) * (cr * cr - ci * ci + x0) +
      (2 * cr * ci + y0) * (2 * cr * ci + y0) ∧
    x0 * x0 + y0 * y0 ≤ (cr * cr - ci * ci + x0) * (cr * cr - ci * ci + x0) +
      (2 * cr * ci + y0) * (2 * cr * ci + y0) := by
  have hz2 := toComplex_normSq cr ci
  have hc2 := toComplex_normSq x0 y0
  have hb2 := toComplex_normSq (cr * cr - ci * ci + x0) (2 * cr * ci + y0)
  have hmul : Complex.mk (cr : ℝ) (ci : ℝ) * Complex.mk (cr : ℝ) (ci : ℝ) +
      Complex.mk (x0 : ℝ) (y0 : ℝ) =
      Complex.mk ((cr * cr - ci * ci + x0 : ℚ) : ℝ) ((2 * cr * ci + y0 : ℚ) : ℝ) := by
    apply Complex.ext
    · simp
    · simp; ring
  have hL : ((Limit : ℚ) : ℝ) = 65536 := by
    unfold Limit
    norm_num
  have h1r : (65536 : ℝ) < ((cr * cr + ci * ci : ℚ) : ℝ) := by
    rw [← hL]
    exact_mod_cast h1
  have h2r : ((x0 * x0 + y0 * y0 : ℚ) : ℝ) ≤ ((cr * cr + ci * ci : ℚ) : ℝ) := by
    exact_mod_cast h2
  have hz0 : 0 ≤ Complex.abs (Complex.mk (cr : ℝ) (ci : ℝ)) := Complex.abs.nonneg _
  have hc0 : 0 ≤ Complex.abs (Complex.mk (x0 : ℝ) (y0 : ℝ)) := Complex.abs.nonneg _
  have hz : 256 < Complex.abs (Complex.mk (cr : ℝ) (ci : ℝ)) := by
    by_contra h
    push_neg at h
    nlinarith
  have hc : Complex.abs (Complex.mk (x0 : ℝ) (y0 : ℝ)) ≤
      Complex.abs (Complex.mk (cr : ℝ) (ci : ℝ)) := by
    by_contra h
    push_neg at h
    nlinarith
  obtain ⟨e1, e2, e3⟩ := escaped_step _ _ hz hc
  rw [hmul] at e1 e2 e3
  have hb0 : 0 ≤ Complex.abs (Complex.mk ((cr * cr - ci * ci + x0 : ℚ) : ℝ)
      ((2 * cr * ci + y0 : ℚ) : ℝ)) := Complex.abs.nonneg _
  refine ⟨?_, ?_, ?_⟩
  · unfold periodicCheck
    rw [Bool.and_eq_false_iff, decide_eq_false_iff_not, decide_eq_false_iff_not]
    by_contra h
    push_neg at h
    obtain ⟨ha, hb⟩ := h
    have hle := Complex.abs_le_abs_re_add_abs_im
      (Complex.mk (cr : ℝ) (ci : ℝ) - Complex.mk ((cr * cr - ci * ci + x0 : ℚ) : ℝ)
        ((2 * cr * ci + y0 : ℚ) : ℝ))
    simp only [Complex.sub_re, Complex.sub_im] at hle
    have har : |(cr : ℝ) - ((cr * cr - ci * ci + x0 : ℚ) : ℝ)| < ((epsilon : ℚ) : ℝ) := by
      have : ((|cr - (cr * cr - ci * ci + x0)| : ℚ) : ℝ) < ((epsilon : ℚ) : ℝ) := by
        exact_mod_cast ha
      simpa using this
    have hbr : |(ci : ℝ) - ((2 * cr * ci + y0 : ℚ) : ℝ)| < ((epsilon : ℚ) : ℝ) := by
      have : ((|ci - (2 * cr * ci + y0)| : ℚ) : ℝ) < ((epsilon : ℚ) : ℝ) := by
        exact_mod_cast hb
      simpa using this
    have heps : ((epsilon : ℚ) : ℝ) < 1 / 2 := by
      unfold epsilon
      norm_num
    linarith
  · have : ((Limit : ℚ) : ℝ) < (((cr * cr - ci * ci + x0) * (cr * cr - ci * ci + x0) +
        (2 * cr * ci + y0) * (2 * cr * ci + y0) : ℚ) : ℝ) := by
      rw [← hb2, hL]
      nlinarith
    exact_mod_cast this
  · have : ((x0 * x0 + y0 * y0 : ℚ) : ℝ) ≤ (((cr * cr - ci * ci + x0) *
        (cr * cr - ci * ci + x0) + (2 * cr * ci + y0) * (2 * cr * ci + y0) : ℚ) : ℝ) := by
      rw [← hb2, ← hc2]
      nlinarith
    exact_mod_cast this

theorem smoothLoop_escaped (x0 y0 : ℚ) (M : Nat) :
    ∀ (k : Nat) (o : Orbit), Limit < o.cr * o.cr + o.ci * o.ci →
      x0 * x0 + y0 * y0 ≤ o.cr * o.cr + o.ci * o.ci →
      (smoothLoop x0 y0 M k o).numIterations = o.numIterations ∧
      (smoothLoop x0 y0 M k o).updates = o.updates + k ∧
      (smoothLoop x0 y0 M k o).iterations = o.iterations + k := by
  intro k
  induction k with
  | zero => intro o _ _; exact ⟨rfl, rfl, rfl⟩
  | succ k ih =>
    intro o h1 h2
    obtain ⟨hp, e1, e2⟩ := escaped_round x0 y0 o.cr o.ci h1 h2
    simp only [smoothLoop, hp, Bool.false_eq_true, if_false]
    obtain ⟨i1, i2, i3⟩ := ih ⟨o.cr * o.cr - o.ci * o.ci + x0, 2 * o.cr * o.ci + y0,
      o.numIterations, o.iterations + 1, o.updates + 1⟩ e1 e2
    simp only at i1 i2 i3
    refine ⟨i1, ?_, ?_⟩
    · rw [i2]; omega
    · rw [i3]; omega

theorem escapeLoop_exit (x0 y0 : ℚ) (M : Nat) :
    ∀ (fuel : Nat) (o : Orbit), M - o.numIterations ≤ fuel →
      (x0 * x0 + y0 * y0 ≤ Limit ∨ (o.cr = x0 ∧ o.ci = y0)) →
      (escapeLoop x0 y0 M fuel o).numIterations ≤ max M o.numIterations ∧
      ((escapeLoop x0 y0 M fuel o).numIterations < M →
        Limit < (escapeLoop x0 y0 M fuel o).cr * (escapeLoop x0 y0 M fuel o).cr +
          (escapeLoop x0 y0 M fuel o).ci * (escapeLoop x0 y0 M fuel o).ci ∧
        x0 * x0 + y0 * y0 ≤
          (escapeLoop x0 y0 M fuel o).cr * (escapeLoop x0 y0 M fuel o).cr +
            (escapeLoop x0 y0 M fuel o).ci * (escapeLoop x0 y0 M fuel o).ci) := by
  intro fuel
  induction fuel with
  | zero =>
    intro o hf _
    simp only [escapeLoop]
    exact ⟨le_max_right _ _, fun h => by omega⟩
  | succ fuel ih =>
    intro o hf hP
    simp only [escapeLoop]
    split_ifs with hc hp
    · exact ⟨le_max_left _ _, fun h => absurd h (lt_irrefl _)⟩
    · have hP1 : x0 * x0 + y0 * y0 ≤ Limit := by
        rcases hP with h | ⟨h1, h2⟩
        · exact h
        · rw [← h1, ← h2]; exact hc.1
      obtain ⟨i1, i2⟩ := ih ⟨o.cr * o.cr - o.ci * o.ci + x0, 2 * o.cr * o.ci + y0,
        o.numIterations + 1, o.iterations + 1, o.updates + 1⟩ (by simp only; omega)
        (Or.inl hP1)
      refine ⟨?_, i2⟩
      simp only at i1
      have := hc.2
      omega
    · refine ⟨le_max_right _ _, fun h => ?_⟩
      have hL : Limit < o.cr * o.cr + o.ci * o.ci := by
        by_contra hn
        exact hc ⟨not_lt.1 hn, h⟩
      refine ⟨hL, ?_⟩
      rcases hP with h | ⟨h1, h2⟩
      · linarith
      · rw [h1, h2]

/-- C19: a sample is coloured black exactly when its final iteration count is
`MaxIterations`.  If `numIterations` equals `MaxIterations` after the escape
loop and the smoothing loop, the appended colour is black.  If the escape loop
was left with `numIterations < MaxIterations`, the orbit has left the disc
(`|z|^2 > 2^16`), the periodic check fires in none of the four smoothing
rounds, `numIterations` keeps its value below `MaxIterations`, and the
appended colour is the palette colour. -/
theorem black_iff_budget_reached (smoothColor : Nat → ℚ → ℚ → QColor) (x0 y0 : ℚ)
    (MaxIterations : Nat) :
    ((sampleOrbit x0 y0 MaxIterations).numIterations = MaxIterations →
      sampleColor smoothColor x0 y0 MaxIterations = black) ∧
    ((sampleEscape x0 y0 MaxIterations).numIterations < MaxIterations →
      Limit < (sampleEscape x0 y0 MaxIterations).cr * (sampleEscape x0 y0 MaxIterations).cr +
        (sampleEscape x0 y0 MaxIterations).ci * (sampleEscape x0 y0 MaxIterations).ci ∧
      (sampleOrbit x0 y0 MaxIterations).updates =
        (sampleEscape x0 y0 MaxIterations).updates + 4 ∧
      (sampleOrbit x0 y0 MaxIterations).numIterations =
        (sampleEscape x0 y0 MaxIterations).numIterations ∧
      sampleColor smoothColor x0 y0 MaxIterations =
        smoothColor (sampleOrbit x0 y0 MaxIterations).numIterations
          (sampleOrbit x0 y0 MaxIterations).cr (sampleOrbit x0 y0 MaxIterations).ci) ∧
    ((sampleOrbit x0 y0 MaxIterations).numIterations = MaxIterations ↔
      ¬ (sampleEscape x0 y0 MaxIterations).numIterations < MaxIterations) := by
  have hstart : (sampleStart x0 y0 MaxIterations).numIterations ≤ MaxIterations := by
    unfold sampleStart
    simp only
    split_ifs <;> omega
  obtain ⟨hle, hex⟩ := escapeLoop_exit x0 y0 MaxIterations MaxIterations
    (sampleStart x0 y0 MaxIterations) (by omega) (Or.inr ⟨rfl, rfl⟩)
  rw [max_eq_left hstart] at hle
  have hesc : (sampleEscape x0 y0 MaxIterations).numIterations < MaxIterations →
      Limit < (sampleEscape x0 y0 MaxIterations).cr * (sampleEscape x0 y0 MaxIterations).cr +
        (sampleEscape x0 y0 MaxIterations).ci * (sampleEscape x0 y0 MaxIterations).ci ∧
      (sampleOrbit x0 y0 MaxIterations).updates =
        (sampleEscape x0 y0 MaxIterations).updates + 4 ∧
      (sampleOrbit x0 y0 MaxIterations).numIterations =
        (sampleEscape x0 y0 MaxIterations).numIterations ∧
      sampleColor smoothColor x0 y0 MaxIterations =
        smoothColor (sampleOrbit x0 y0 MaxIterations).numIterations
          (sampleOrbit x0 y0 MaxIterations).cr (sampleOrbit x0 y0 MaxIterations).ci := by
    intro h
    obtain ⟨h1, h2⟩ := hex h
    obtain ⟨s1, s2, _⟩ := smoothLoop_escaped x0 y0 MaxIterations 4
      (sampleEscape x0 y0 MaxIterations) h1 h2
    have ho : sampleOrbit x0 y0 MaxIterations =
        smoothLoop x0 y0 MaxIterations 4 (sampleEscape x0 y0 MaxIterations) := by
      unfold sampleOrbit
      simp only [h, if_true]
    refine ⟨h1, by rw [ho]; exact s2, by rw [ho]; exact s1, ?_⟩
    rw [ho]
    unfold sampleColor
    simp only [h, if_true]
  have hnot : ¬ (sampleEscape x0 y0 MaxIterations).numIterations < MaxIterations →
      sampleOrbit x0 y0 MaxIterations = sampleEscape x0 y0 MaxIterations ∧
      sampleColor smoothColor x0 y0 MaxIterations = black := by
    intro h
    constructor
    · unfold sampleOrbit
      simp only [h, if_false]
    · unfold sampleColor
      simp only [h, if_false]
  have hiff : (sampleOrbit x0 y0 MaxIterations).numIterations = MaxIterations ↔
      ¬ (sampleEscape x0 y0 MaxIterations).numIterations < MaxIterations := by
    constructor
    · intro h hlt
      have := (hesc hlt).2.2.1
      omega
    · intro h
      rw [(hnot h).1]
      have : sampleEscape x0 y0 MaxIterations =
          escapeLoop x0 y0 MaxIterations MaxIterations (sampleStart x0 y0 MaxIterations) := rfl
      rw [this] at h ⊢
      omega
  exact ⟨fun h => (hnot (hiff.1 h)).2, hesc, hiff⟩

/-! ## The interior shortcut against the brute-force loop

Points of the main cardioid have a bounded orbit.  The proof is the classical
one: `c = μ/2 - μ^2/4` with `|μ| < 1`, the fixed point `μ/2` has multiplier
`μ`, and if the orbit of `c` left the disc of radius 2, every iterate would
have a holomorphic right inverse on a disc around the fixed point, bounded by
2, with derivative `μ^(-n)` there, against the Cauchy estimate. -/

section CriticalOrbit

open Metric Set MeasureTheory Filter Topology

/-! ### Primitives and square roots of holomorphic functions on a disc -/

theorem segment_mem_closedBall (a x : ℂ) (R : ℝ) (t : ℝ) (hx : x ∈ closedBall a R)
    (ht0 : 0 ≤ t) (ht1 : t ≤ 1) : a + (t : ℂ) * (x - a) ∈ closedBall a R := by
  rw [mem_closedBall, dist_eq_norm] at *
  have e : a + (t : ℂ) * (x - a) - a = (t : ℂ) * (x - a) := by ring
  rw [e, norm_mul, Complex.norm_real, Real.norm_of_nonneg ht0]
  calc t * ‖x - a‖ ≤ 1 * ‖x - a‖ := by gcongr
    _ = ‖x - a‖ := one_mul _
    _ ≤ R := hx

theorem segment_mem_ball (a x : ℂ) (r : ℝ) (t : ℝ) (hx : x ∈ ball a r)
    (ht0 : 0 ≤ t) (ht1 : t ≤ 1) : a + (t : ℂ) * (x - a) ∈ ball a r := by
  have h1 : x ∈ closedBall a (dist x a) := mem_closedBall.2 le_rfl
  have h2 := segment_mem_closedBall a x (dist x a) t h1 ht0 ht1
  exact lt_of_le_of_lt (mem_closedBall.1 h2) (mem_ball.1 hx)

theorem curve_continuousOn (g : ℂ → ℂ) (a x : ℂ) (r : ℝ) (hg : ContinuousOn g (ball a r))
    (hx : x ∈ ball a r) :
    ContinuousOn (fun t : ℝ => g (a + (t : ℂ) * (x - a))) (Icc 0 1) := by
  have hc : Continuous (fun t : ℝ => a + (t : ℂ) * (x - a)) := by continuity
  exact hg.comp hc.continuousOn (fun t ht => segment_mem_ball a x r t hx ht.1 ht.2)

theorem exists_primitive_on_ball (f : ℂ → ℂ) (a : ℂ) (r : ℝ)
    (hf : DifferentiableOn ℂ f (ball a r)) :
    ∃ P : ℂ → ℂ, ∀ z ∈ ball a r, HasDerivAt P (f z) z := by
  refine ⟨fun z => (z - a) * ∫ t in (0 : ℝ)..1, f (a + (t : ℂ) * (z - a)), ?_⟩
  intro z0 hz0
  have hcd : ContinuousOn (deriv f) (ball a r) :=
    (hf.contDiffOn (n := 1) isOpen_ball).continuousOn_deriv_of_isOpen isOpen_ball le_rfl
  have hfc : ContinuousOn f (ball a r) := hf.continuousOn
  have hρ : dist z0 a < r := hz0
  have hε : 0 < (r - dist z0 a) / 2 := by linarith
  have hK : closedBall a (dist z0 a + (r - dist z0 a) / 2) ⊆ ball a r :=
    closedBall_subset_ball (by linarith)
  obtain ⟨C, hC⟩ := (isCompact_closedBall a (dist z0 a + (r - dist z0 a) / 2)).exists_bound_of_continuousOn
    (hcd.mono hK)
  have hsub : ball z0 ((r - dist z0 a) / 2) ⊆ closedBall a (dist z0 a + (r - dist z0 a) / 2) := by
    intro x hx
    rw [mem_closedBall]
    have := dist_triangle x z0 a
    have hx' : dist x z0 < (r - dist z0 a) / 2 := hx
    linarith
  have h01 : Ι (0 : ℝ) 1 = Ioc 0 1 := uIoc_of_le zero_le_one
  have hderivcurve : ContinuousOn (fun t : ℝ => (t : ℂ) * deriv f (a + (t : ℂ) * (z0 - a)))
      (Icc 0 1) :=
    (Complex.continuous_ofReal.continuousOn).mul (curve_continuousOn (deriv f) a z0 r hcd hz0)
  have hm1 : ∀ᶠ z in 𝓝 z0, AEStronglyMeasurable (fun t : ℝ => f (a + (t : ℂ) * (z - a)))
      (volume.restrict (Ι (0 : ℝ) 1)) := by
    have hnhds : ball a r ∈ 𝓝 z0 := isOpen_ball.mem_nhds hz0
    filter_upwards [hnhds] with z hz
    rw [h01]
    exact ((curve_continuousOn f a z r hfc hz).mono Ioc_subset_Icc_self).aestronglyMeasurable
      measurableSet_Ioc
  have hm2 : IntervalIntegrable (fun t : ℝ => f (a + (t : ℂ) * (z0 - a))) volume 0 1 :=
    (curve_continuousOn f a z0 r hfc hz0).intervalIntegrable_of_Icc zero_le_one
  have hm3 : AEStronglyMeasurable (fun t : ℝ => (t : ℂ) * deriv f (a + (t : ℂ) * (z0 - a)))
      (volume.restrict (Ι (0 : ℝ) 1)) := by
    rw [h01]
    exact (hderivcurve.mono Ioc_subset_Icc_self).aestronglyMeasurable measurableSet_Ioc
  have hm4 : ∀ᵐ t ∂(volume : Measure ℝ), t ∈ Ι (0 : ℝ) 1 →
      ∀ x ∈ ball z0 ((r - dist z0 a) / 2),
        ‖(t : ℂ) * deriv f (a + (t : ℂ) * (x - a))‖ ≤ (fun _ : ℝ => C) t := by
    refine Eventually.of_forall (fun t ht x hx => ?_)
    rw [h01] at ht
    have hmem := segment_mem_closedBall a x _ t (hsub hx) ht.1.le ht.2
    have hb := hC _ hmem
    rw [norm_mul, Complex.norm_real, Real.norm_of_nonneg ht.1.le]
    calc t * ‖deriv f (a + (t : ℂ) * (x - a))‖ ≤ 1 * C := by
          apply mul_le_mul ht.2 hb (norm_nonneg _) zero_le_one
      _ = C := one_mul _
  have hm5 : IntervalIntegrable (fun _ : ℝ => C) volume 0 1 := intervalIntegrable_const
  have hm6 : ∀ᵐ t ∂(volume : Measure ℝ), t ∈ Ι (0 : ℝ) 1 →
      ∀ x ∈ ball z0 ((r - dist z0 a) / 2),
        HasDerivAt (fun x : ℂ => f (a + (t : ℂ) * (x - a)))
          ((t : ℂ) * deriv f (a + (t : ℂ) * (x - a))) x := by
    refine Eventually.of_forall (fun t ht x hx => ?_)
    rw [h01] at ht
    have hmem : a + (t : ℂ) * (x - a) ∈ ball a r :=
      hK (segment_mem_closedBall a x _ t (hsub hx) ht.1.le ht.2)
    have hout : HasDerivAt f (deriv f (a + (t : ℂ) * (x - a))) (a + (t : ℂ) * (x - a)) :=
      (hf.differentiableAt (isOpen_ball.mem_nhds hmem)).hasDerivAt
    have hin : HasDerivAt (fun x : ℂ => a + (t : ℂ) * (x - a)) ((t : ℂ) * 1) x :=
      (((hasDerivAt_id x).sub_const a).const_mul (t : ℂ)).const_add a
    have := HasDerivAt.comp x hout hin
    convert this using 1
    ring
  have hG : IntervalIntegrable (fun t : ℝ => (t : ℂ) * deriv f (a + (t : ℂ) * (z0 - a)))
        volume 0 1 ∧
      HasDerivAt (fun z : ℂ => ∫ t in (0 : ℝ)..1, f (a + (t : ℂ) * (z - a)))
        (∫ t in (0 : ℝ)..1, (t : ℂ) * deriv f (a + (t : ℂ) * (z0 - a))) z0 :=
    @intervalIntegral.hasDerivAt_integral_of_dominated_loc_of_deriv_le ℂ _ volume ℂ _ _ _ 0 1
      ((r - dist z0 a) / 2) (fun _ : ℝ => C) (fun z t => f (a + (t : ℂ) * (z - a)))
      (fun z t => (t : ℂ) * deriv f (a + (t : ℂ) * (z - a))) z0 hε hm1 hm2 hm3 hm4 hm5 hm6
  have hprod := ((hasDerivAt_id z0).sub_const a).mul hG.2
  convert hprod using 1
  -- the value
  simp only [id, one_mul]
  have hφ : ∀ t ∈ uIcc (0 : ℝ) 1, HasDerivAt
      (fun s : ℝ => (s : ℂ) * f (a + (s : ℂ) * (z0 - a)))
      (f (a + (t : ℂ) * (z0 - a)) +
        (z0 - a) * ((t : ℂ) * deriv f (a + (t : ℂ) * (z0 - a)))) t := by
    intro t ht
    rw [uIcc_of_le zero_le_one] at ht
    have hmem : a + (t : ℂ) * (z0 - a) ∈ ball a r := segment_mem_ball a z0 r t hz0 ht.1 ht.2
    have hout : HasDerivAt f (deriv f (a + (t : ℂ) * (z0 - a))) (a + (t : ℂ) * (z0 - a)) :=
      (hf.differentiableAt (isOpen_ball.mem_nhds hmem)).hasDerivAt
    have hin : HasDerivAt (fun w : ℂ => a + w * (z0 - a)) (1 * (z0 - a)) (t : ℂ) :=
      ((hasDerivAt_id (t : ℂ)).mul_const (z0 - a)).const_add a
    have hcomp : HasDerivAt (fun w : ℂ => f (a + w * (z0 - a)))
        (deriv f (a + (t : ℂ) * (z0 - a)) * (1 * (z0 - a))) (t : ℂ) :=
      HasDerivAt.comp (t : ℂ) hout hin
    have hmul := (hasDerivAt_id (t : ℂ)).mul hcomp
    have hreal := hmul.comp_ofReal
    convert hreal using 1
    simp only [id]
    ring
  have hint1 : IntervalIntegrable (fun t : ℝ => f (a + (t : ℂ) * (z0 - a))) volume 0 1 :=
    (curve_continuousOn f a z0 r hfc hz0).intervalIntegrable_of_Icc zero_le_one
  have hint2 : IntervalIntegrable
      (fun t : ℝ => (z0 - a) * ((t : ℂ) * deriv f (a + (t : ℂ) * (z0 - a)))) volume 0 1 :=
    ((continuousOn_const.mul hderivcurve).intervalIntegrable_of_Icc zero_le_one)
  have hftc := intervalIntegral.integral_eq_sub_of_hasDerivAt hφ (hint1.add hint2)
  rw [intervalIntegral.integral_add hint1 hint2, intervalIntegral.integral_const_mul] at hftc
  simp only [Complex.ofReal_one, one_mul, Complex.ofReal_zero, zero_mul, sub_zero] at hftc
  have e : a + (z0 - a) = z0 := by ring
  rw [e] at hftc
  rw [← hftc]

theorem exists_sqrt_on_ball (F : ℂ → ℂ) (a : ℂ) (r : ℝ) (hr : 0 < r)
    (hF : DifferentiableOn ℂ F (ball a r)) (hne : ∀ z ∈ ball a r, F z ≠ 0) :
    ∃ s : ℂ → ℂ, DifferentiableOn ℂ s (ball a r) ∧ ∀ z ∈ ball a r, s z * s z = F z := by
  have hF' : DifferentiableOn ℂ (deriv F) (ball a r) :=
    (hF.analyticOnNhd isOpen_ball).deriv.differentiableOn
  have hq : DifferentiableOn ℂ (fun z => deriv F z / F z) (ball a r) := hF'.div hF hne
  obtain ⟨L, hL⟩ := exists_primitive_on_ball _ a r hq
  have hLd : DifferentiableOn ℂ L (ball a r) :=
    fun z hz => (hL z hz).differentiableAt.differentiableWithinAt
  have hh : ∀ z ∈ ball a r, HasDerivAt (fun z => F z * Complex.exp (-L z)) 0 z := by
    intro z hz
    have h1 : HasDerivAt F (deriv F z) z :=
      (hF.differentiableAt (isOpen_ball.mem_nhds hz)).hasDerivAt
    have h2 : HasDerivAt (fun z => Complex.exp (-L z))
        (Complex.exp (-L z) * -(deriv F z / F z)) z := (hL z hz).neg.cexp
    have h3 := h1.mul h2
    convert h3 using 1
    field_simp [hne z hz]
    ring
  have hconst : ∀ z ∈ ball a r, F z * Complex.exp (-L z) = F a * Complex.exp (-L a) := by
    intro z hz
    have hd : DifferentiableOn ℂ (fun z => F z * Complex.exp (-L z)) (ball a r) :=
      fun x hx => (hh x hx).differentiableAt.differentiableWithinAt
    have hz0 : ∀ x ∈ ball a r,
        fderivWithin ℂ (fun z => F z * Complex.exp (-L z)) (ball a r) x = 0 := by
      intro x hx
      rw [fderivWithin_of_isOpen isOpen_ball hx]
      have := (hh x hx).hasFDerivAt.fderiv
      rw [this]
      ext
      simp
    exact (convex_ball a r).is_const_of_fderivWithin_eq_zero hd hz0 hz (mem_ball_self hr)
  have hk : F a * Complex.exp (-L a) ≠ 0 :=
    mul_ne_zero (hne a (mem_ball_self hr)) (Complex.exp_ne_zero _)
  refine ⟨fun z => Complex.exp ((L z + Complex.log (F a * Complex.exp (-L a))) / 2), ?_, ?_⟩
  · exact ((hLd.add_const _).div_const 2).cexp
  · intro z hz
    rw [← Complex.exp_add]
    have e : (L z + Complex.log (F a * Complex.exp (-L a))) / 2 +
        (L z + Complex.log (F a * Complex.exp (-L a))) / 2 =
        L z + Complex.log (F a * Complex.exp (-L a)) := by ring
    rw [e, Complex.exp_add, Complex.exp_log hk, ← hconst z hz]
    have : Complex.exp (L z) * (F z * Complex.exp (-L z)) =
        F z * (Complex.exp (L z) * Complex.exp (-L z)) := by ring
    rw [this, ← Complex.exp_add]
    simp

/-! ## Orbits of `z ↦ z^2 + c` for `c` in the main cardioid -/

theorem quad_iterate_large (c : ℂ) (hc : ‖c‖ ≤ 1) :
    ∀ (n : Nat) (z : ℂ), 2 < ‖z‖ → 2 < ‖(fun z : ℂ => z * z + c)^[n] z‖ := by
  intro n
  induction n with
  | zero => intro z hz; simpa using hz
  | succ n ih =>
    intro z hz
    rw [Function.iterate_succ_apply]
    apply ih
    have h1 : ‖z * z‖ = ‖z‖ * ‖z‖ := norm_mul _ _
    have h2 : ‖z * z‖ ≤ ‖z * z + c‖ + ‖c‖ := by
      have := norm_add_le (z * z + c) (-c)
      simpa using this
    nlinarith

theorem quad_disc_invariant (μ z : ℂ) (hz : z ∈ ball (μ / 2) (1 - ‖μ‖)) :
    z * z + (μ / 2 - μ * μ / 4) ∈ ball (μ / 2) (1 - ‖μ‖) := by
  rw [mem_ball, dist_eq_norm] at *
  have e : z * z + (μ / 2 - μ * μ / 4) - μ / 2 = (z - μ / 2) * (z - μ / 2 + μ) := by ring
  rw [e, norm_mul]
  have h1 : ‖z - μ / 2 + μ‖ ≤ ‖z - μ / 2‖ + ‖μ‖ := norm_add_le _ _
  have h0 : 0 ≤ ‖z - μ / 2‖ := norm_nonneg _
  calc ‖z - μ / 2‖ * ‖z - μ / 2 + μ‖ ≤ ‖z - μ / 2‖ * 1 := by
        apply mul_le_mul_of_nonneg_left _ h0
        linarith
    _ = ‖z - μ / 2‖ := mul_one _
    _ < 1 - ‖μ‖ := hz

theorem quad_disc_iterate (μ : ℂ) :
    ∀ (n : Nat) (z : ℂ), z ∈ ball (μ / 2) (1 - ‖μ‖) →
      (fun z : ℂ => z * z + (μ / 2 - μ * μ / 4))^[n] z ∈ ball (μ / 2) (1 - ‖μ‖) := by
  intro n
  induction n with
  | zero => intro z hz; simpa using hz
  | succ n ih =>
    intro z hz
    rw [Function.iterate_succ_apply]
    exact ih _ (quad_disc_invariant μ z hz)

theorem quad_disc_norm (μ z : ℂ) (hz : z ∈ ball (μ / 2) (1 - ‖μ‖)) : ‖z‖ ≤ 1 := by
  rw [mem_ball, dist_eq_norm] at hz
  have h1 : ‖z‖ ≤ ‖z - μ / 2‖ + ‖μ / 2‖ := by
    have := norm_add_le (z - μ / 2) (μ / 2)
    simpa using this
  have h2 : ‖μ / 2‖ = ‖μ‖ / 2 := by
    rw [norm_div]
    simp
  have h3 : 0 ≤ ‖μ‖ := norm_nonneg _
  linarith

theorem quad_param_norm (μ : ℂ) (hμ : ‖μ‖ < 1) : ‖μ / 2 - μ * μ / 4‖ ≤ 1 := by
  have h1 : ‖μ / 2 - μ * μ / 4‖ ≤ ‖μ / 2‖ + ‖μ * μ / 4‖ := norm_sub_le _ _
  have h2 : ‖μ / 2‖ = ‖μ‖ / 2 := by
    rw [norm_div]
    simp
  have h3 : ‖μ * μ / 4‖ = ‖μ‖ * ‖μ‖ / 4 := by
    rw [norm_div, norm_mul]
    simp
  have h0 : 0 ≤ ‖μ‖ := norm_nonneg _
  nlinarith

/-- Inverse branches: if the orbit of `c` never meets the disc around the
attracting fixed point, every iterate has a holomorphic right inverse on that
disc which fixes the fixed point. -/
theorem quad_inverse_branches (μ : ℂ) (hμ : ‖μ‖ < 1)
    (hesc : ∀ m : Nat, (fun z : ℂ => z * z + (μ / 2 - μ * μ / 4))^[m] (μ / 2 - μ * μ / 4) ∉
      ball (μ / 2) (1 - ‖μ‖)) :
    ∀ n : Nat, ∃ g : ℂ → ℂ, DifferentiableOn ℂ g (ball (μ / 2) (1 - ‖μ‖)) ∧ g (μ / 2) = μ / 2 ∧
      ∀ w ∈ ball (μ / 2) (1 - ‖μ‖),
        (fun z : ℂ => z * z + (μ / 2 - μ * μ / 4))^[n] (g w) = w := by
  have hr : 0 < 1 - ‖μ‖ := by linarith
  intro n
  induction n with
  | zero => exact ⟨id, differentiableOn_id, rfl, fun w _ => rfl⟩
  | succ n ih =>
    obtain ⟨g, hg, hgα, hgw⟩ := ih
    have hne : ∀ w ∈ ball (μ / 2) (1 - ‖μ‖), g w - (μ / 2 - μ * μ / 4) ≠ 0 := by
      intro w hw h0
      have hgc : g w = μ / 2 - μ * μ / 4 := sub_eq_zero.1 h0
      have := hgw w hw
      rw [hgc] at this
      exact hesc n (this ▸ hw)
    obtain ⟨s, hs, hss⟩ := exists_sqrt_on_ball (fun w => g w - (μ / 2 - μ * μ / 4)) (μ / 2)
      (1 - ‖μ‖) hr (hg.sub_const _) hne
    have hsα : s (μ / 2) * s (μ / 2) = μ / 2 * (μ / 2) := by
      rw [hss _ (mem_ball_self hr), hgα]
      ring
    rcases mul_self_eq_mul_self_iff.1 hsα with h | h
    · refine ⟨s, hs, h, fun w hw => ?_⟩
      rw [Function.iterate_succ_apply]
      have : s w * s w + (μ / 2 - μ * μ / 4) = g w := by
        rw [hss w hw]; ring
      simp only [this]
      exact hgw w hw
    · refine ⟨fun w => -s w, hs.neg, by simp [h], fun w hw => ?_⟩
      rw [Function.iterate_succ_apply]
      have : -s w * -s w + (μ / 2 - μ * μ / 4) = g w := by
        rw [neg_mul_neg, hss w hw]; ring
      simp only [this]
      exact hgw w hw

theorem quad_orbit_bounded (μ : ℂ) (hμ : ‖μ‖ < 1) (n0 : Nat) :
    ‖(fun z : ℂ => z * z + (μ / 2 - μ * μ / 4))^[n0] (μ / 2 - μ * μ / 4)‖ ≤ 2 := by
  by_contra hbig
  push_neg at hbig
  have hr : 0 < 1 - ‖μ‖ := by linarith
  have hc1 := quad_param_norm μ hμ
  -- the orbit of c never meets the disc
  have hesc : ∀ m : Nat,
      (fun z : ℂ => z * z + (μ / 2 - μ * μ / 4))^[m] (μ / 2 - μ * μ / 4) ∉
        ball (μ / 2) (1 - ‖μ‖) := by
    intro m hm
    have h1 := quad_disc_iterate μ n0 _ hm
    have h2 := quad_iterate_large _ hc1 m _ hbig
    rw [← Function.iterate_add_apply] at h1 h2
    have h3 := quad_disc_norm μ _ h1
    rw [Nat.add_comm] at h3
    linarith
  have hbr := quad_inverse_branches μ hμ hesc
  -- the fixed point and its multiplier
  have hfix : (fun z : ℂ => z * z + (μ / 2 - μ * μ / 4)) (μ / 2) = μ / 2 := by
    simp only
    ring
  have hder : HasDerivAt (fun z : ℂ => z * z + (μ / 2 - μ * μ / 4)) μ (μ / 2) := by
    have h := ((hasDerivAt_id (μ / 2)).mul (hasDerivAt_id (μ / 2))).add_const
      (μ / 2 - μ * μ / 4)
    convert h using 1
    simp only [id]
    ring
  obtain ⟨n, hn⟩ := exists_pow_lt_of_lt_one (show 0 < (1 - ‖μ‖) / 4 by linarith) hμ
  obtain ⟨g, hg, hgα, hgw⟩ := hbr n
  have hmem : μ / 2 ∈ ball (μ / 2) (1 - ‖μ‖) := mem_ball_self hr
  have hgd : HasDerivAt g (deriv g (μ / 2)) (μ / 2) :=
    (hg.differentiableAt (isOpen_ball.mem_nhds hmem)).hasDerivAt
  have hit : HasDerivAt ((fun z : ℂ => z * z + (μ / 2 - μ * μ / 4))^[n]) (μ ^ n) (g (μ / 2)) := by
    rw [hgα]
    exact HasDerivAt.iterate (μ / 2) hder hfix n
  have hcomp : HasDerivAt
      (fun w => (fun z : ℂ => z * z + (μ / 2 - μ * μ / 4))^[n] (g w))
      (μ ^ n * deriv g (μ / 2)) (μ / 2) := HasDerivAt.comp (μ / 2) hit hgd
  have hid : HasDerivAt (fun w : ℂ => w) 1 (μ / 2) := hasDerivAt_id _
  have heq : (fun w => (fun z : ℂ => z * z + (μ / 2 - μ * μ / 4))^[n] (g w)) =ᶠ[𝓝 (μ / 2)]
      (fun w : ℂ => w) := by
    filter_upwards [isOpen_ball.mem_nhds hmem] with w hw
    exact hgw w hw
  have hone : μ ^ n * deriv g (μ / 2) = 1 :=
    (hcomp.congr_of_eventuallyEq heq.symm).unique hid |>.symm ▸ rfl
  -- Cauchy estimate
  have hsubset : closedBall (μ / 2) ((1 - ‖μ‖) / 2) ⊆ ball (μ / 2) (1 - ‖μ‖) :=
    closedBall_subset_ball (by linarith)
  have hbound : ∀ z ∈ sphere (μ / 2) ((1 - ‖μ‖) / 2), ‖g z‖ ≤ 2 := by
    intro z hz
    have hzD : z ∈ ball (μ / 2) (1 - ‖μ‖) := hsubset (sphere_subset_closedBall hz)
    by_contra hgt
    push_neg at hgt
    have h2 := quad_iterate_large _ hc1 n _ hgt
    rw [hgw z hzD] at h2
    have h3 := quad_disc_norm μ z hzD
    linarith
  have hcauchy := Complex.norm_deriv_le_of_forall_mem_sphere_norm_le
    (show 0 < (1 - ‖μ‖) / 2 by linarith) (hg.diffContOnCl_ball hsubset) hbound
  have hnorm : ‖μ ^ n * deriv g (μ / 2)‖ = 1 := by rw [hone]; simp
  rw [norm_mul, norm_pow] at hnorm
  have hpos : 0 ≤ ‖μ‖ ^ n := pow_nonneg (norm_nonneg _) n
  have hdle : ‖deriv g (μ / 2)‖ ≤ 4 / (1 - ‖μ‖) := by
    have hq : ∀ t : ℝ, 0 < t → 2 / (t / 2) = 4 / t := fun t ht => by
      field_simp
      ring
    calc ‖deriv g (μ / 2)‖ ≤ 2 / ((1 - ‖μ‖) / 2) := hcauchy
      _ = 4 / (1 - ‖μ‖) := hq _ hr
  have hlt : ‖μ‖ ^ n * ‖deriv g (μ / 2)‖ < 1 := by
    calc ‖μ‖ ^ n * ‖deriv g (μ / 2)‖ ≤ ‖μ‖ ^ n * (4 / (1 - ‖μ‖)) :=
          mul_le_mul_of_nonneg_left hdle hpos
      _ < (1 - ‖μ‖) / 4 * (4 / (1 - ‖μ‖)) := by
          apply mul_lt_mul_of_pos_right hn
          positivity
      _ = 1 := by
          have hq : ∀ t : ℝ, 0 < t → t / 4 * (4 / t) = 1 := fun t ht => by
            field_simp
          exact hq _ hr
  linarith

theorem cardioid_param (x y : ℝ)
    (h : ((x - 1 / 4) ^ 2 + y ^ 2) * (((x - 1 / 4) ^ 2 + y ^ 2) + (x - 1 / 4)) < y ^ 2 / 4) :
    ∃ μ : ℂ, ‖μ‖ < 1 ∧ Complex.mk x y = μ / 2 - μ * μ / 4 := by
  obtain ⟨u0, hu0⟩ := IsAlgClosed.exists_pow_nat_eq (1 - 4 * Complex.mk x y) (show 0 < 2 by norm_num)
  -- choose the square root with non-negative real part
  obtain ⟨u, hu, hre⟩ : ∃ u : ℂ, u * u = 1 - 4 * Complex.mk x y ∧ 0 ≤ u.re := by
    by_cases h0 : 0 ≤ u0.re
    · exact ⟨u0, by rw [← hu0]; ring, h0⟩
    · refine ⟨-u0, by rw [← hu0]; ring, ?_⟩
      simp only [Complex.neg_re]
      linarith
  have hA : u.re * u.re - u.im * u.im = 1 - 4 * x := by
    have := congrArg Complex.re hu
    simpa using this
  have hB : u.re * u.im + u.im * u.re = -(4 * y) := by
    have := congrArg Complex.im hu
    simpa using this
  refine ⟨1 - u, ?_, ?_⟩
  · -- the multiplier lies in the unit disc
    have hq : (2 * ((x - 1 / 4) ^ 2 + y ^ 2) + (x - 1 / 4)) ^ 2 < (x - 1 / 4) ^ 2 + y ^ 2 := by
      nlinarith
    have hN0 : 0 ≤ u.re * u.re + u.im * u.im :=
      add_nonneg (mul_self_nonneg _) (mul_self_nonneg _)
    have hN2 : (u.re * u.re + u.im * u.im) ^ 2 = 16 * ((x - 1 / 4) ^ 2 + y ^ 2) := by
      have e : (u.re * u.re + u.im * u.im) ^ 2 =
          (u.re * u.re - u.im * u.im) ^ 2 + (u.re * u.im + u.im * u.re) ^ 2 := by ring
      rw [e, hA, hB]
      ring
    have h1 : 8 * ((x - 1 / 4) ^ 2 + y ^ 2) + 4 * (x - 1 / 4) < u.re * u.re + u.im * u.im := by
      by_contra hc
      push_neg at hc
      nlinarith
    have h2 : u.re * u.re + u.im * u.im < 2 * u.re := by
      by_contra hc
      push_neg at hc
      nlinarith
    have hns : Complex.normSq (1 - u) < 1 := by
      rw [Complex.normSq_apply]
      simp only [Complex.sub_re, Complex.one_re, Complex.sub_im, Complex.one_im]
      nlinarith
    have hsq : ‖1 - u‖ ^ 2 < 1 := by
      rw [Complex.norm_eq_abs, Complex.sq_abs]
      exact hns
    by_contra hc
    push_neg at hc
    nlinarith
  · have e : (1 - u) / 2 - (1 - u) * (1 - u) / 4 = (1 - u * u) / 4 := by ring
    rw [e, hu]
    ring

theorem cardioid_orbit_bounded (x0 y0 : ℚ) (h : mainCardioid x0 y0) (n : Nat) :
    ‖(fun z : ℂ => z * z + Complex.mk (x0 : ℝ) (y0 : ℝ))^[n] (Complex.mk (x0 : ℝ) (y0 : ℝ))‖ ≤ 2 := by
  have h2 : ((((x0 - 1 / 4) ^ 2 + y0 ^ 2) * (((x0 - 1 / 4) ^ 2 + y0 ^ 2) + (x0 - 1 / 4)) : ℚ) : ℝ) <
      ((y0 ^ 2 / 4 : ℚ) : ℝ) := Rat.cast_lt.2 h
  obtain ⟨μ, hμ, hc⟩ := cardioid_param (x0 : ℝ) (y0 : ℝ) (by
    push_cast at h2
    exact h2)
  rw [hc]
  exact quad_orbit_bounded μ hμ n

theorem escapeLoop_bounded_orbit (x0 y0 : ℚ) (M : Nat)
    (hb : ∀ n : Nat, ‖(fun z : ℂ => z * z + Complex.mk (x0 : ℝ) (y0 : ℝ))^[n]
      (Complex.mk (x0 : ℝ) (y0 : ℝ))‖ ≤ 2) :
    ∀ (fuel : Nat) (o : Orbit) (k : Nat), M - o.numIterations ≤ fuel → o.numIterations ≤ M →
      Complex.mk (o.cr : ℝ) (o.ci : ℝ) =
        (fun z : ℂ => z * z + Complex.mk (x0 : ℝ) (y0 : ℝ))^[k] (Complex.mk (x0 : ℝ) (y0 : ℝ)) →
      (escapeLoop x0 y0 M fuel o).numIterations = M ∧
      (escapeLoop x0 y0 M fuel o).cr * (escapeLoop x0 y0 M fuel o).cr +
        (escapeLoop x0 y0 M fuel o).ci * (escapeLoop x0 y0 M fuel o).ci ≤ Limit := by
  have hsmall : ∀ (o : Orbit) (k : Nat), Complex.mk (o.cr : ℝ) (o.ci : ℝ) =
      (fun z : ℂ => z * z + Complex.mk (x0 : ℝ) (y0 : ℝ))^[k] (Complex.mk (x0 : ℝ) (y0 : ℝ)) →
      o.cr * o.cr + o.ci * o.ci ≤ Limit := by
    intro o k ho
    have h1 := hb k
    rw [← ho, Complex.norm_eq_abs] at h1
    have h2 := toComplex_normSq o.cr o.ci
    have h0 : 0 ≤ Complex.abs (Complex.mk (o.cr : ℝ) (o.ci : ℝ)) := Complex.abs.nonneg _
    have h3 : ((o.cr * o.cr + o.ci * o.ci : ℚ) : ℝ) ≤ 4 := by
      rw [← h2]
      nlinarith
    have h4 : (o.cr * o.cr + o.ci * o.ci : ℚ) ≤ 4 := by exact_mod_cast h3
    unfold Limit
    linarith
  intro fuel
  induction fuel with
  | zero =>
    intro o k hf hn ho
    simp only [escapeLoop]
    exact ⟨by omega, hsmall o k ho⟩
  | succ fuel ih =>
    intro o k hf hn ho
    simp only [escapeLoop]
    split_ifs with hc hp
    · exact ⟨rfl, hsmall o k ho⟩
    · apply ih _ (k + 1)
      · simp only; omega
      · simp only; have := hc.2; omega
      · rw [Function.iterate_succ_apply', ← ho]
        apply Complex.ext
        · simp
        · simp; ring
    · refine ⟨?_, hsmall o k ho⟩
      have hs := hsmall o k ho
      have : ¬ o.numIterations < M := fun hlt => hc ⟨hs, hlt⟩
      omega

/-- C11: for every point `c = (x0, y0)` that passes the cardioid check of lines
252-253 and every `MaxIterations`, the escape loop run from `z = c` with
`numIterations` starting at 0 ends with `numIterations = MaxIterations` and
with `|z|^2 ≤ 2^16`; the loop terminates (more fuel gives the same result). -/
theorem bruteForce_reaches_budget (x0 y0 : ℚ) (MaxIterations : Nat)
    (h : cardioidCheck x0 y0 = true) :
    (bruteForce x0 y0 MaxIterations).numIterations = MaxIterations ∧
    (bruteForce x0 y0 MaxIterations).cr * (bruteForce x0 y0 MaxIterations).cr +
      (bruteForce x0 y0 MaxIterations).ci * (bruteForce x0 y0 MaxIterations).ci ≤ Limit ∧
    ∀ k : Nat, escapeLoop x0 y0 MaxIterations (MaxIterations + k) ⟨x0, y0, 0, 0, 0⟩ =
      bruteForce x0 y0 MaxIterations := by
  have hb := cardioid_orbit_bounded x0 y0 ((cardioidCheck_iff x0 y0).1 h)
  obtain ⟨h1, h2⟩ := escapeLoop_bounded_orbit x0 y0 MaxIterations hb MaxIterations
    ⟨x0, y0, 0, 0, 0⟩ 0 (by simp) (by simp) rfl
  exact ⟨h1, h2, fun k => escapeLoop_fuel x0 y0 MaxIterations k MaxIterations _ (by simp)⟩

/-- Witness of C11 at `c = 0` with `MaxIterations = 3`. -/
theorem bruteForce_reaches_budget_witness :
    cardioidCheck 0 0 = true ∧ (bruteForce 0 0 3).numIterations = 3 :=
  ⟨by norm_num [cardioidCheck],
    (bruteForce_reaches_budget 0 0 3 (by norm_num [cardioidCheck])).1⟩

end CriticalOrbit

end RenderThread
